import Mathlib

/-!
Shallow embedding of the `memory_pool` allocator (Common.h, CentralCache.{h,cpp},
PageCache.{h,cpp}, ThreadCache.{h,cpp}) and proofs about the claims of its
specification.

Machine integers: `size_t` / `uintptr_t` values are modelled as `Nat`; the one
place where the source can wrap around (the trailing `- 1` of
`SizeClass::getIndex`, which underflows for `bytes == 0`) is modelled explicitly
with arithmetic modulo `2 ^ 64`.  `uint32_t` bitmap words are `Nat`s carried
with the invariant `< 2 ^ 32`; the bitwise complement `~w` of the source is
`w ^^^ (2 ^ 32 - 1)`.

Layout: all definitions come first, all theorems afterwards.
-/

set_option maxRecDepth 4096

namespace MemPool

/-! ## Definitions -/

/-! ### Constants (Common.h)

`ALIGNMENT = alignof(std::max_align_t)` is 16 on the x86-64 Linux target the
repository is built for. -/

def ALIGNMENT : Nat := 16
def MAX_SMALL_SZ : Nat := 512
def MAX_MEDIUM_SZ : Nat := 4 * 1024
def MAX_LARGE_SZ : Nat := 64 * 1024
def MAX_BYTES : Nat := 256 * 1024

def STEP_SMALL : Nat := ALIGNMENT
def STEP_MEDIUM : Nat := 64
def STEP_LARGE : Nat := 512
def STEP_XLARGE : Nat := 4096

def CLS_SMALL : Nat := (MAX_SMALL_SZ + STEP_SMALL - 1) / STEP_SMALL
def CLS_MEDIUM : Nat := (MAX_MEDIUM_SZ - MAX_SMALL_SZ + STEP_MEDIUM - 1) / STEP_MEDIUM
def CLS_LARGE : Nat := (MAX_LARGE_SZ - MAX_MEDIUM_SZ + STEP_LARGE - 1) / STEP_LARGE
def CLS_XLARGE : Nat := (MAX_BYTES - MAX_LARGE_SZ + STEP_XLARGE - 1) / STEP_XLARGE
def NUM_CLASSES : Nat := CLS_SMALL + CLS_MEDIUM + CLS_LARGE + CLS_XLARGE

def PAGE_SIZE : Nat := 4096

/-- The modulus of `size_t` on the 64-bit target. -/
def U64 : Nat := 2 ^ 64

/-- `a - 1` in `size_t` arithmetic: wraps to `2^64 - 1` when `a = 0`. -/
def subOne64 (a : Nat) : Nat := (a + (U64 - 1)) % U64

/-! ### SizeClass (Common.h lines 34-79) -/

namespace SizeClass

/-- `SizeClass::getIndex` (Common.h lines 38-54).  Every arithmetic step is in
`size_t`; the only step that can underflow is the trailing `- 1`, rendered via
`subOne64`. -/
def getIndex (bytes : Nat) : Nat :=
  if bytes ≤ MAX_SMALL_SZ then
    subOne64 ((bytes + STEP_SMALL - 1) / STEP_SMALL)
  else if bytes ≤ MAX_MEDIUM_SZ then
    CLS_SMALL + subOne64 ((bytes - MAX_SMALL_SZ + STEP_MEDIUM - 1) / STEP_MEDIUM)
  else if bytes ≤ MAX_LARGE_SZ then
    CLS_SMALL + CLS_MEDIUM + subOne64 ((bytes - MAX_MEDIUM_SZ + STEP_LARGE - 1) / STEP_LARGE)
  else
    CLS_SMALL + CLS_MEDIUM + CLS_LARGE +
      subOne64 ((bytes - MAX_LARGE_SZ + STEP_XLARGE - 1) / STEP_XLARGE)

/-- `SizeClass::getSize` (Common.h lines 56-78).  The source mutates `index`
(`index -= CLS_SMALL` ...); here the subtractions are written out, which is
exact because each `else` branch guarantees the minuend is large enough. -/
def getSize (index : Nat) : Nat :=
  if index < CLS_SMALL then
    (index + 1) * STEP_SMALL
  else if index - CLS_SMALL < CLS_MEDIUM then
    MAX_SMALL_SZ + (index - CLS_SMALL + 1) * STEP_MEDIUM
  else if index - CLS_SMALL - CLS_MEDIUM < CLS_LARGE then
    MAX_MEDIUM_SZ + (index - CLS_SMALL - CLS_MEDIUM + 1) * STEP_LARGE
  else if index - CLS_SMALL - CLS_MEDIUM - CLS_LARGE < CLS_XLARGE then
    MAX_LARGE_SZ + (index - CLS_SMALL - CLS_MEDIUM - CLS_LARGE + 1) * STEP_XLARGE
  else 0

end SizeClass

/-- The size clamp at the top of `ThreadCache::allocate` (ThreadCache.cpp
lines 11-14): `if (size <= 0) size = ALIGNMENT;` (for the unsigned `size_t`
this fires exactly at `size == 0`). -/
def allocClampedSize (size : Nat) : Nat :=
  if size = 0 then ALIGNMENT else size

/-! ### Bit primitives for the SpanTracker bitmap (CentralCache.{h,cpp})

The bitmap word type is `uint32_t`; a word is a `Nat < 2^32`. -/

/-- `~w` on `uint32_t`. -/
def comp32 (x : Nat) : Nat := x ^^^ (2 ^ 32 - 1)

/-- `__builtin_ctz`: count of trailing zero bits (the source only applies it to
nonzero words). -/
def ctz (n : Nat) : Nat :=
  if h : n = 0 then 0
  else if n % 2 = 1 then 0
  else ctz (n / 2) + 1
termination_by n
decreasing_by exact Nat.div_lt_self (Nat.pos_of_ne_zero h) (by omega)

/-- `avail & (avail - 1)`: clear the lowest set bit. -/
def clearLow (n : Nat) : Nat := n &&& (n - 1)

/-- The positions of the set bits of `n`, lowest first (the order in which the
`while (avail != 0)` loop of `allocateBatch` visits them). -/
def bits (n : Nat) : List Nat :=
  if h : n = 0 then []
  else ctz n :: bits (clearLow n)
termination_by n
decreasing_by exact Nat.lt_of_le_of_lt Nat.and_le_right (by omega)

/-- Number of 0 bits among the 32 bits of one bitmap word. -/
def zeros32 (x : Nat) : Nat :=
  ((List.range 32).filter (fun j => !(x.testBit j))).length

/-- Number of 0 bits of a whole bitmap (list of words). -/
def zerosCount (words : List Nat) : Nat := (words.map zeros32).sum

/-- Test the bit of block index `i` in a bitmap, with the word/bit split
`w = idx >> 5`, `b = idx & 31` used by the source. -/
def bitGet (words : List Nat) (i : Nat) : Bool :=
  (words.getD (i / 32) 0).testBit (i % 32)

/-- The inner `while (avail != 0 && got < toGrab)` loop of
`SpanTracker::allocateBatch` (CentralCache.cpp lines 40-56) acting on one
bitmap word.  `avail` is the complement of the word when the loop starts, `x`
is the bitmap word itself, `fc` the running `freeCount`.  Each round takes
`b = ctz avail`, performs `setAllocated` (conditional bit-set plus `--freeCount`,
CentralCache.h lines 28-37) on the word, and clears the bit from `avail`.
Returns (list of extracted bit positions, final word, final freeCount). -/
def wordLoop (avail x fc need : Nat) : List Nat × Nat × Nat :=
  if avail = 0 ∨ need = 0 then ([], x, fc)
  else
    let b := ctz avail
    let xfc := if x &&& 2 ^ b = 0 then (x ||| 2 ^ b, fc - 1) else (x, fc)
    let r := wordLoop (clearLow avail) xfc.1 xfc.2 (need - 1)
    (b :: r.1, r.2)
termination_by avail
decreasing_by
  rename_i h
  exact Nat.lt_of_le_of_lt Nat.and_le_right (by omega)

/-- The outer `for (w = 0; w < BITMAP_WORDS && got < toGrab; ++w)` loop of
`SpanTracker::allocateBatch` over the list of bitmap words; `w` is the index of
the first word, `need` the number of blocks still to grab.  Returns (extracted
global block indices in order, new bitmap words, final freeCount).  A word
whose `need` has dropped to 0 is passed through unchanged, exactly as the
source loop exits. -/
def batchLoop : List Nat → Nat → Nat → Nat → List Nat × List Nat × Nat
  | [], _, _, fc => ([], [], fc)
  | x :: rest, w, need, fc =>
    let r := wordLoop (comp32 x) x fc need
    let r2 := batchLoop rest (w + 1) (need - r.1.length) r.2.2
    (r.1.map (fun b => 32 * w + b) ++ r2.1, r.2.1 :: r2.2.1, r2.2.2)

/-! ### SpanTracker (CentralCache.h lines 15-75) -/

/-- `SpanTracker`: bookkeeping for one span assigned to a size class.  The
`bitmap` is the list of `BITMAP_WORDS = 32` words; the intrusive `prev`/`next`
pointers are represented by the position of the tracker's key inside the
owning `CCState.freeList` list instead. -/
structure SpanTracker where
  spanAddr : Nat
  numPages : Nat
  freeCount : Nat
  bitmap : List Nat
  deriving Repr, DecidableEq

namespace SpanTracker

/-- `BLOCK_COUNT = 1024`. -/
def BLOCK_COUNT : Nat := 1024

/-- `BITMAP_WORDS = BLOCK_COUNT / 32`. -/
def BITMAP_WORDS : Nat := BLOCK_COUNT / 32

/-- `allFree()`: `freeCount == BLOCK_COUNT`. -/
def allFree (t : SpanTracker) : Bool := t.freeCount == BLOCK_COUNT

/-- `allAllocated()`: `freeCount == 0`. -/
def allAllocated (t : SpanTracker) : Bool := t.freeCount == 0

/-- `freeAll()`: zero the bitmap, reset `freeCount`. -/
def freeAll (t : SpanTracker) : SpanTracker :=
  { t with bitmap := List.replicate 32 0, freeCount := BLOCK_COUNT }

/-- `setFree(idx)` (CentralCache.h lines 39-48): clear bit `idx` and increment
`freeCount`, but only if the bit was set.  `w = idx >> 5`, `b = idx & 31`;
`bitmap[w] &= ~(1u << b)` is the word AND the 32-bit complement of `1 << b`. -/
def setFree (t : SpanTracker) (idx : Nat) : SpanTracker :=
  let w := idx / 32
  let b := idx % 32
  let word := t.bitmap.getD w 0
  if word.testBit b then
    { t with bitmap := t.bitmap.set w (word &&& comp32 (2 ^ b)),
             freeCount := t.freeCount + 1 }
  else t

/-- `SpanTracker::allocateBatch(maxBatch, blockSize)` (CentralCache.cpp lines
29-60).  The returned singly-linked list (threaded through the first word of
each block. terminated by null) is modelled as the Lean list of block
addresses in the order the source links them; the returned `count` of the
source equals the length of that list. -/
def allocateBatch (t : SpanTracker) (maxBatch blockSize : Nat) :
    List Nat × SpanTracker :=
  let toGrab := min maxBatch t.freeCount
  let r := batchLoop t.bitmap 0 toGrab t.freeCount
  (r.1.map (fun i => t.spanAddr + i * blockSize),
    { t with bitmap := r.2.1, freeCount := r.2.2 })

end SpanTracker

/-- The postcondition of `SpanTracker::allocateBatch` claimed by the
specification, at tracker `t`, arguments `maxBatch`/`blockSize`, where `r` is
the (block list, updated tracker) result: exactly `min maxBatch freeCount`
blocks, pairwise distinct and strictly ascending, each of address
`spanAddr + i·blockSize` for a block index `i` whose bit goes 0 → 1, all other
bits unchanged, and `freeCount` decremented by exactly the returned count. -/
def AllocateBatchSpec (t : SpanTracker) (maxBatch blockSize : Nat) : Prop :=
  (t.allocateBatch maxBatch blockSize).1.length = min maxBatch t.freeCount ∧
  (t.allocateBatch maxBatch blockSize).1.Pairwise (· < ·) ∧
  (t.allocateBatch maxBatch blockSize).1.Nodup ∧
  (∃ I : List Nat,
    (t.allocateBatch maxBatch blockSize).1 = I.map (fun i => t.spanAddr + i * blockSize) ∧
    (∀ i ∈ I, i < SpanTracker.BLOCK_COUNT ∧ bitGet t.bitmap i = false ∧
      bitGet (t.allocateBatch maxBatch blockSize).2.bitmap i = true) ∧
    (∀ i, i < SpanTracker.BLOCK_COUNT → i ∉ I →
      bitGet (t.allocateBatch maxBatch blockSize).2.bitmap i = bitGet t.bitmap i)) ∧
  (t.allocateBatch maxBatch blockSize).2.freeCount
      + (t.allocateBatch maxBatch blockSize).1.length = t.freeCount ∧
  (t.allocateBatch maxBatch blockSize).2.spanAddr = t.spanAddr ∧
  (t.allocateBatch maxBatch blockSize).2.numPages = t.numPages

/-- A concrete tracker for evaluating `allocateBatch`: all blocks allocated
except block 0. -/
def c1ex : SpanTracker :=
  { spanAddr := 4096, numPages := 4, freeCount := 1,
    bitmap := (2 ^ 32 - 2) :: List.replicate 31 (2 ^ 32 - 1) }

/-! ### Association-list models of the std maps

`std::unordered_map` is a finite map with unique keys; it is modelled as an
association list (`alookup` / `aset` = `operator[]` assignment / `aerase` =
`erase`).  `std::map` is additionally ordered by key: `sset` inserts keeping
the ascending key order, `firstGE` is `lower_bound`, and `predLookup` is the
`upper_bound`-then-predecessor idiom (greatest key `≤` the probe, if any). -/

def alookup {α : Type} : List (Nat × α) → Nat → Option α
  | [], _ => none
  | (k', v) :: t, k => if k' = k then some v else alookup t k

def aset {α : Type} : List (Nat × α) → Nat → α → List (Nat × α)
  | [], k, v => [(k, v)]
  | (k', v') :: t, k, v => if k' = k then (k, v) :: t else (k', v') :: aset t k v

def aerase {α : Type} : List (Nat × α) → Nat → List (Nat × α)
  | [], _ => []
  | (k', v') :: t, k => if k' = k then t else (k', v') :: aerase t k

def sset {α : Type} : List (Nat × α) → Nat → α → List (Nat × α)
  | [], k, v => [(k, v)]
  | (k', v') :: t, k, v =>
    if k = k' then (k, v) :: t
    else if k < k' then (k, v) :: (k', v') :: t
    else (k', v') :: sset t k v

def firstGE {α : Type} : List (Nat × α) → Nat → Option (Nat × α)
  | [], _ => none
  | (k', v) :: t, k => if k ≤ k' then some (k', v) else firstGE t k

def predLookup {α : Type} : List (Nat × α) → Nat → Option (Nat × α)
  | [], _ => none
  | (k', v) :: t, k =>
    if k < k' then none
    else match predLookup t k with
      | some r => some r
      | none => some (k', v)

/-! ### PageCache (PageCache.{h,cpp})

State of the `PageCache` singleton.  A `Span` object `{pageAddr, numPages}` is
always registered in `spanStartMap_`, so the object store and the start map
are fused: `spanStart` maps a span's start address to its page count, and a
pointer dereference `span->numPages` is `alookup spanStart addr`.  `spanEnd`
maps one-past-end addresses to the owning span's start address (the `Span*`
value of the source).  `freeSpans` maps a page count to the list of start
addresses of the spans on that doubly-linked free list, head first.
`mappings` is ghost state recording each `systemAlloc` result (address, pages)
for the cross-mapping coalescing claim; the source keeps no such record. -/
structure PCState where
  freeSpans : List (Nat × List Nat)
  spanStart : List (Nat × Nat)
  spanEnd : List (Nat × Nat)
  mappings : List (Nat × Nat)
  deriving Repr, DecidableEq

/-- `endAddr(span)` (PageCache.h lines 123-126). -/
def endAddr (a g : Nat) : Nat := a + g * PAGE_SIZE

/-- The empty `PageCache`. -/
def pcEmpty : PCState := ⟨[], [], [], []⟩

/-- `PageCache::detachFromFreeList` (PageCache.cpp lines 135-159) for the span
`(a, g)`: if the span is on the free list of its size, unlink it (erasing the
key when the list empties, line 156) and answer `true`, else leave the state
unchanged and answer `false`.  (The source detects non-membership through the
null `prev`/`next` discipline of unlinked spans; membership of `a` in the
per-size list is the extensional content of that check.) -/
def detachFromFreeList (s : PCState) (a g : Nat) : PCState × Bool :=
  match alookup s.freeSpans g with
  | none => (s, false)
  | some lst =>
    if a ∈ lst then
      let lst' := lst.erase a
      ({ s with freeSpans :=
          if lst' = [] then aerase s.freeSpans g else aset s.freeSpans g lst' }, true)
    else (s, false)

/-- `PageCache::pushToFreeList` (PageCache.cpp lines 162-169): head-insert into
`freeSpans_[numPages]` (`operator[]` creates the entry if absent). -/
def pushToFreeList (s : PCState) (a g : Nat) : PCState :=
  { s with freeSpans :=
      match alookup s.freeSpans g with
      | none => sset s.freeSpans g [a]
      | some lst => aset s.freeSpans g (a :: lst) }

/-- `PageCache::allocateSpan` (PageCache.cpp lines 32-81).  `os` is the
address `systemAlloc` would return on the OS path (`none` = `mmap` failure).
The two `(s, none)` fallbacks inside the hit path are unreachable for
well-formed states (`freeSpans` never stores an empty list and every live span
is registered in `spanStart`); in the source they would be undefined behaviour
(null/dangling dereference). -/
def allocateSpan (s : PCState) (n : Nat) (os : Option Nat) : PCState × Option Nat :=
  if n = 0 then (s, none) else
  match firstGE s.freeSpans n with
  | some kl =>
    match kl.2 with
    | [] => (s, none)
    | a :: _ =>
      match alookup s.spanStart a with
      | none => (s, none)
      | some g =>
        let s1 := (detachFromFreeList s a g).1
        if n < g then
          let s2 : PCState := { s1 with spanEnd := aerase s1.spanEnd (endAddr a g) }
          let ta := a + n * PAGE_SIZE
          let tg := g - n
          let s3 := pushToFreeList s2 ta tg
          let s4 : PCState := { s3 with spanStart := aset s3.spanStart ta tg,
                                        spanEnd := aset s3.spanEnd (endAddr ta tg) ta }
          let s5 : PCState := { s4 with spanStart := aset s4.spanStart a n,
                                        spanEnd := aset s4.spanEnd (endAddr a n) a }
          (s5, some a)
        else
          let s5 : PCState := { s1 with spanStart := aset s1.spanStart a g,
                                        spanEnd := aset s1.spanEnd (endAddr a g) a }
          (s5, some a)
  | none =>
    match os with
    | none => (s, none)
    | some m =>
      ({ s with spanStart := aset s.spanStart m n,
                spanEnd := aset s.spanEnd (endAddr m n) m,
                mappings := (m, n) :: s.mappings }, some m)

/-- `PageCache::deallocateSpan` (PageCache.cpp lines 84-132), with every map
operation in source order.  In particular the left-coalesce arm performs, in
this order: erase `spanEnd[endAddr(leftSpan)]` (line 119), grow the left span
(line 120), insert `spanEnd[endAddr(leftSpan)] = leftSpan` with the *new* end
(line 121), erase `spanStart[span->pageAddr]` (line 123), and erase
`spanEnd[endAddr(span)]` (line 124) — the last key equals the key inserted at
line 121, so the merged span's end tag is removed again.  The `(s1, p, g1)`
fallback for a dangling `spanEnd` value is unreachable for well-formed
states. -/
def deallocateSpan (s : PCState) (p : Nat) : PCState :=
  match alookup s.spanStart p with
  | none => s
  | some g =>
    let rightAddr := endAddr p g
    let step1 : PCState × Nat :=
      match alookup s.spanStart rightAddr with
      | none => (s, g)
      | some gr =>
        let dr := detachFromFreeList s rightAddr gr
        if dr.2 then
          let sA : PCState := { dr.1 with spanStart := aerase dr.1.spanStart rightAddr }
          let sB : PCState := { sA with spanEnd := aerase sA.spanEnd (endAddr rightAddr gr) }
          let sC : PCState := { sB with spanEnd := aerase sB.spanEnd (endAddr p g) }
          let sD : PCState := { sC with spanEnd := aset sC.spanEnd (endAddr p (g + gr)) p,
                                        spanStart := aset sC.spanStart p (g + gr) }
          (sD, g + gr)
        else (dr.1, g)
    let s1 := step1.1
    let g1 := step1.2
    let step2 : PCState × Nat × Nat :=
      match alookup s1.spanEnd p with
      | none => (s1, p, g1)
      | some la =>
        match alookup s1.spanStart la with
        | none => (s1, p, g1)
        | some lg =>
          let dl := detachFromFreeList s1 la lg
          if dl.2 then
            let sA : PCState := { dl.1 with spanEnd := aerase dl.1.spanEnd (endAddr la lg) }
            let sB : PCState := { sA with spanEnd := aset sA.spanEnd (endAddr la (lg + g1)) la,
                                          spanStart := aset sA.spanStart la (lg + g1) }
            let sC : PCState := { sB with spanStart := aerase sB.spanStart p }
            let sD : PCState := { sC with spanEnd := aerase sC.spanEnd (endAddr p g1) }
            (sD, la, lg + g1)
          else (dl.1, p, g1)
    pushToFreeList step2.1 step2.2.1 step2.2.2

/-- The maximal-free-run invariant of the specification: for every span on a
free list, no free span starts at its one-past-end address and no free span
ends at its start address. -/
def MFRHolds (s : PCState) : Prop :=
  ∀ kl ∈ s.freeSpans, ∀ a ∈ kl.2, ∀ kl' ∈ s.freeSpans, ∀ b ∈ kl'.2,
    b ≠ endAddr a kl.1 ∧ endAddr b kl'.1 ≠ a

/-- "Coalescing never joins spans from distinct OS mappings": every registered
span lies inside a single original mapping. -/
def SpansWithinOneMapping (s : PCState) : Prop :=
  ∀ kv ∈ s.spanStart, ∃ m ∈ s.mappings, m.1 ≤ kv.1 ∧ endAddr kv.1 kv.2 ≤ endAddr m.1 m.2

/-! Concrete traces for the PageCache claims.  The C3 trace carves a single
4-page mapping at address 4096 into four 1-page spans `a b c d`, frees `b`,
then `c` (left-coalescing `b∪c` — whose end tag at 16384 the source then
erases again), then `d` (whose left-coalesce lookup at 16384 now misses). -/

def c3sA : PCState := (allocateSpan pcEmpty 4 (some 4096)).1
def c3sB : PCState := deallocateSpan c3sA 4096
def c3sC : PCState := (allocateSpan c3sB 1 none).1
def c3sD : PCState := (allocateSpan c3sC 1 none).1
def c3sE : PCState := (allocateSpan c3sD 1 none).1
def c3sF : PCState := (allocateSpan c3sE 1 none).1
def c3sG : PCState := deallocateSpan c3sF 8192
def c3sH : PCState := deallocateSpan c3sG 12288
def c3sI : PCState := deallocateSpan c3sH 16384

/-- The C7 trace: two separately-mapped, accidentally adjacent 1-page spans. -/
def c7sA : PCState := (allocateSpan pcEmpty 1 (some 4096)).1
def c7sB : PCState := (allocateSpan c7sA 1 (some 8192)).1
def c7sC : PCState := deallocateSpan c7sB 8192
def c7sD : PCState := deallocateSpan c7sC 4096

instance (s : PCState) : Decidable (MFRHolds s) := by
  unfold MFRHolds
  infer_instance

instance (s : PCState) : Decidable (SpansWithinOneMapping s) := by
  unfold SpansWithinOneMapping
  infer_instance

/-! ### CentralCache reverse index, large classes (CentralCache.cpp 261-273) -/

/-- The large-class branch of `CentralCache::getSpanTracker`: `upper_bound`,
step back, return the tracker — with no end-of-span check. -/
def getSpanTrackerLarge (m : List (Nat × SpanTracker)) (addr : Nat) :
    Option SpanTracker :=
  (predLookup m addr).map (·.2)

/-- Keys strictly ascending: the `std::map` ordering invariant. -/
def KeysSorted {α : Type} (m : List (Nat × α)) : Prop :=
  m.Pairwise (fun x y => x.1 < y.1)

/-- One registered 1-page span at 4096 for the C2 counterexample. -/
def c2tr : SpanTracker :=
  { spanAddr := 4096, numPages := 1, freeCount := 1024, bitmap := List.replicate 32 0 }

def c2map : List (Nat × SpanTracker) := [(4096, c2tr)]

/-! ### ThreadCache (ThreadCache.{h,cpp})

Per-thread, per-class state: `freeList_[index]` is the singly-linked LIFO list
of free blocks (head first, links threaded through the blocks' first words),
`freeListSize_[index]` the running count.  The model views one class slot. -/
structure TCState where
  freeList : List Nat
  count : Nat
  deriving Repr, DecidableEq

/-- `kMaxBytesPerIndex` of `ThreadCache::shouldReturnToCentralCache`
(ThreadCache.cpp line 69): 256 KiB. -/
def kPerIndexCap : Nat := 256 * 1024

/-- `ThreadCache::shouldReturnToCentralCache` (ThreadCache.cpp lines 67-73):
`freeListSize_[index] * blockSize > kMaxBytesPerIndex`. -/
def shouldReturnToCentral (idx : Nat) (s : TCState) : Bool :=
  decide (s.count * SizeClass.getSize idx > kPerIndexCap)

/-- `ThreadCache::returnToCentralCache` (ThreadCache.cpp lines 107-120): keep
`max(count/2, 1)` blocks, sever the list after the keep-th node, hand the rest
to `CentralCache::returnRange`.  The source walks `keep - 1` next pointers
from the head and cuts there; for a list of length `≥ keep` the kept part is
the first `keep` nodes in order (`take`) and the severed chain is the rest
(`drop`).  Returns (new local state, chain handed to returnRange). -/
def returnToCentral (s : TCState) : TCState × List Nat :=
  let keep := max (s.count / 2) 1
  (⟨s.freeList.take keep, keep⟩, s.freeList.drop keep)

/-- The `size ≤ MAX_BYTES` path of `ThreadCache::deallocate` (ThreadCache.cpp
lines 40-64) acting on the slot of class `idx = getIndex size`: push the block,
bump the count, and if the post-push list exceeds the 256 KiB cap, run
`returnToCentralCache`.  The second component is the chain handed to
`CentralCache::returnRange` (`none` when no return was triggered). -/
def tcDeallocate (idx : Nat) (s : TCState) (ptr : Nat) : TCState × Option (List Nat) :=
  let s1 : TCState := ⟨ptr :: s.freeList, s.count + 1⟩
  if shouldReturnToCentral idx s1 then
    let r := returnToCentral s1
    (r.1, some r.2)
  else (s1, none)

/-! ### CentralCache (CentralCache.{h,cpp})

Per-class state of the `CentralCache` singleton, for one class index `idx`:
`trackers` is the store of live `SpanTracker` records keyed by their span
start address (a `SpanTracker*` is modelled by that key); `freeList` is the
doubly-linked `central_[idx].freeList` as the list of tracker keys in list
order (head first; `pushFront` = cons, `removeFromList` = erase of a member);
`emptyCount` is `central_[idx].emptyCount`; `pageMap` is
`spanPageMap_[idx].m` (page base → tracker key, used when `idx < CLS_MEDIUM`);
`spanMap` is `spanMap_[idx - CLS_MEDIUM].m` (ordered, span start → tracker
key, used otherwise). -/
structure CCState where
  trackers : List (Nat × SpanTracker)
  freeList : List Nat
  emptyCount : Nat
  pageMap : List (Nat × Nat)
  spanMap : List (Nat × Nat)
  deriving Repr, DecidableEq

def ccInit : CCState := ⟨[], [], 0, [], []⟩

/-- `kMaxBytesPerIndex` (CentralCache.h line 107): 4 MiB. -/
def kMaxBytesPerIndex : Nat := 4 * 1024 * 1024

/-- Pages per span of class `idx`:
`(blockSize·BLOCK_COUNT + PAGE_SIZE - 1) / PAGE_SIZE` (CentralCache.cpp
line 138). -/
def pagesFor (idx : Nat) : Nat :=
  (SizeClass.getSize idx * SpanTracker.BLOCK_COUNT + PAGE_SIZE - 1) / PAGE_SIZE

/-- `maxEmptySpans` of `CentralCache::returnRange` (CentralCache.cpp lines
172-176): `ceil(kMaxBytesPerIndex / spanBytes)` with floor 1. -/
def maxEmptySpans (idx : Nat) : Nat :=
  let spanBytes := SizeClass.getSize idx * SpanTracker.BLOCK_COUNT
  let m := (kMaxBytesPerIndex + spanBytes - 1) / spanBytes
  if m < 1 then 1 else m

/-- `addr & ~(PAGE_SIZE - 1)` on the 64-bit `uintptr_t` (CentralCache.cpp
lines 253-255). -/
def maskPage (addr : Nat) : Nat := addr &&& (2 ^ 64 - PAGE_SIZE)

/-- `CentralCache::getSpanTracker` (CentralCache.cpp lines 248-274), returning
the key of the tracker (`SpanTracker*`): page-base hash lookup for
`idx < CLS_MEDIUM`, predecessor search in the ordered map otherwise (no
end-of-span validation, see C2). -/
def ccGetSpanTracker (idx : Nat) (s : CCState) (addr : Nat) : Option Nat :=
  if idx < CLS_MEDIUM then alookup s.pageMap (maskPage addr)
  else (predLookup s.spanMap addr).map (·.2)

/-- `CentralCache::fetchFromPageCache` (CentralCache.cpp lines 132-163).
`os` stands for the result of `PageCache::allocateSpan(pages)` (`none` =
failure).  On success a fresh tracker (all free, `BLOCK_COUNT` blocks) is
registered: one `pageMap` entry per page when `idx < CLS_MEDIUM`, one ordered
`spanMap` entry otherwise. -/
def fetchFromPageCache (idx : Nat) (s : CCState) (os : Option Nat) :
    CCState × Option Nat :=
  match os with
  | none => (s, none)
  | some a =>
    let pages := pagesFor idx
    let tr : SpanTracker := { spanAddr := a, numPages := pages,
                              freeCount := SpanTracker.BLOCK_COUNT,
                              bitmap := List.replicate 32 0 }
    if idx < CLS_MEDIUM then
      ({ s with trackers := aset s.trackers a tr,
                pageMap := (List.range pages).foldl
                  (fun m p => aset m (a + p * PAGE_SIZE) a) s.pageMap }, some a)
    else
      ({ s with trackers := aset s.trackers a tr,
                spanMap := sset s.spanMap a a }, some a)

/-- `CentralCache::returnToPageCache` (CentralCache.cpp lines 215-245):
decrement `emptyCount`, unlink the tracker, erase its reverse-index entries,
recycle it (`SpanTrackerPool::put` + `PageCache::deallocateSpan`, outside this
per-class state).  The `none` fallback is unreachable when the argument is a
live tracker key. -/
def returnToPageCacheCC (idx : Nat) (s : CCState) (key : Nat) : CCState :=
  match alookup s.trackers key with
  | none => s
  | some t =>
    { trackers := aerase s.trackers key,
      freeList := s.freeList.erase key,
      emptyCount := s.emptyCount - 1,
      pageMap := if idx < CLS_MEDIUM then
          (List.range t.numPages).foldl
            (fun m p => aerase m (t.spanAddr + p * PAGE_SIZE)) s.pageMap
        else s.pageMap,
      spanMap := if idx < CLS_MEDIUM then s.spanMap else aerase s.spanMap t.spanAddr }

/-- `CentralCache::fetchRange` (CentralCache.cpp lines 97-130).  `os` feeds
`fetchFromPageCache` when the class list is empty.  Returns the new state and
the batch (list of block addresses).  The two `(s1, [])` fallback arms are
unreachable for well-formed states (the list head is a registered tracker). -/
def fetchRange (idx : Nat) (s : CCState) (maxBatch : Nat) (os : Option Nat) :
    CCState × List Nat :=
  if NUM_CLASSES ≤ idx ∨ maxBatch = 0 then (s, [])
  else
    let sref : CCState × Bool :=
      if s.freeList = [] then
        match fetchFromPageCache idx s os with
        | (s1, none) => (s1, false)
        | (s1, some a) =>
          ({ s1 with freeList := a :: s1.freeList, emptyCount := s1.emptyCount + 1 }, true)
      else (s, true)
    if sref.2 = false then (sref.1, [])
    else
      match sref.1.freeList with
      | [] => (sref.1, [])
      | sthead :: _ =>
        match alookup sref.1.trackers sthead with
        | none => (sref.1, [])
        | some t =>
          let wasEmpty := t.allFree
          let res := t.allocateBatch maxBatch (SizeClass.getSize idx)
          let s2 : CCState := { sref.1 with trackers := aset sref.1.trackers sthead res.2 }
          let s3 : CCState :=
            if wasEmpty = true ∧ res.1.length ≠ 0 then
              { s2 with emptyCount := s2.emptyCount - 1 }
            else s2
          let s4 : CCState :=
            if res.2.allAllocated = true then
              { s3 with freeList := s3.freeList.erase sthead }
            else s3
          (s4, res.1)

/-- The per-block body of `CentralCache::returnRange` (CentralCache.cpp lines
181-212), iterated over the chain.  `none` models the fatal paths: the
`assert(st)` failure when the reverse index cannot resolve a block, and —
for a resolved tracker whose span does not contain the block — the
out-of-bounds bitmap write `setFree(blkIdx)` with `blkIdx ≥ BLOCK_COUNT`
(undefined behaviour in the source). -/
def retGo (idx maxE blkSize : Nat) : CCState → List Nat → Option CCState
  | s, [] => some s
  | s, p :: rest =>
    match ccGetSpanTracker idx s p with
    | none => none
    | some key =>
      match alookup s.trackers key with
      | none => none
      | some t =>
        let blkIdx := (p - t.spanAddr) / blkSize
        if SpanTracker.BLOCK_COUNT ≤ blkIdx then none
        else
          let wasFull := t.allAllocated
          let wasEmpty := t.allFree
          let t' := t.setFree blkIdx
          let s1 : CCState := { s with trackers := aset s.trackers key t' }
          let s2 : CCState := if wasFull = true then { s1 with freeList := key :: s1.freeList } else s1
          if wasEmpty = false ∧ t'.allFree = true then
            let s3 : CCState := { s2 with emptyCount := s2.emptyCount + 1 }
            if maxE < s3.emptyCount then
              retGo idx maxE blkSize (returnToPageCacheCC idx s3 key) rest
            else retGo idx maxE blkSize s3 rest
          else retGo idx maxE blkSize s2 rest

/-- `CentralCache::returnRange` (CentralCache.cpp lines 166-213). -/
def returnRange (idx : Nat) (s : CCState) (chain : List Nat) : Option CCState :=
  if chain = [] ∨ NUM_CLASSES ≤ idx then some s
  else retGo idx (maxEmptySpans idx) (SizeClass.getSize idx) s chain

/-- Side condition on the `PageCache::allocateSpan` oracle: a successful
allocation is page-aligned... in fact all the per-class invariants need is
that the fresh span does not overlap any span still registered with this
class (PageCache hands out disjoint live spans). -/
def osOK (idx : Nat) (s : CCState) (os : Option Nat) : Prop :=
  match os with
  | none => True
  | some a =>
    ∀ kt ∈ s.trackers, a + pagesFor idx * PAGE_SIZE ≤ kt.2.spanAddr ∨
      kt.2.spanAddr + kt.2.numPages * PAGE_SIZE ≤ a

/-- States of one CentralCache class reachable from the fresh state by
`fetchRange` / `returnRange` calls (observed between calls).  A `returnRange`
step requires the call to complete (`some`): a chain the reverse index cannot
resolve aborts on the source's assertion instead. -/
inductive ReachCC (idx : Nat) : CCState → Prop
  | init : ReachCC idx ccInit
  | fetch (s : CCState) (maxBatch : Nat) (os : Option Nat) :
      ReachCC idx s → osOK idx s os → ReachCC idx (fetchRange idx s maxBatch os).1
  | ret (s : CCState) (chain : List Nat) (s' : CCState) :
      ReachCC idx s → returnRange idx s chain = some s' → ReachCC idx s'

/-- Whether the tracker registered under key `a` (if any) is all-free. -/
def emptyKeyP (m : List (Nat × SpanTracker)) (a : Nat) : Bool :=
  match alookup m a with
  | some t => t.allFree
  | none => false

/-- Number of all-free trackers currently on the class free list. -/
def countEmptyKeys (s : CCState) : Nat :=
  s.freeList.countP (emptyKeyP s.trackers)

/-- The inductive invariant of one CentralCache class, established for all
`ReachCC`-reachable states and strong enough to carry the `emptyCount` bound
through `fetchRange`/`returnRange`: tracker keys are unique, every live
tracker satisfies the bitmap/`freeCount` well-formedness of `SpanTracker`,
the class free list has no duplicates, a tracker is on the free list exactly
when it has a free block, `emptyCount` counts the all-free trackers on the
free list, and `emptyCount` never exceeds `maxEmptySpans idx`. -/
structure CCInv (idx : Nat) (s : CCState) : Prop where
  tkeys : (s.trackers.map (·.1)).Nodup
  tgood : ∀ kt ∈ s.trackers, kt.2.bitmap.length = 32 ∧
    (∀ x ∈ kt.2.bitmap, x < 2 ^ 32) ∧ kt.2.freeCount = zerosCount kt.2.bitmap
  flnd : s.freeList.Nodup
  fliff : ∀ a t, alookup s.trackers a = some t → (a ∈ s.freeList ↔ t.freeCount ≠ 0)
  ecnt : s.emptyCount = countEmptyKeys s
  ecbound : s.emptyCount ≤ maxEmptySpans idx

/-! ## Theorems -/

/-! ### Size-class table facts -/

theorem CLS_SMALL_eq : CLS_SMALL = 32 := rfl
theorem CLS_MEDIUM_eq : CLS_MEDIUM = 56 := rfl
theorem CLS_LARGE_eq : CLS_LARGE = 120 := rfl
theorem CLS_XLARGE_eq : CLS_XLARGE = 48 := rfl
theorem NUM_CLASSES_eq : NUM_CLASSES = 256 := rfl

/-- `subOne64` agrees with exact subtraction as long as no underflow happens. -/
theorem subOne64_eq_sub {a : Nat} (h1 : 1 ≤ a) (h2 : a < U64) : subOne64 a = a - 1 := by
  unfold subOne64 U64 at *
  omega

/-- On the small segment `getIndex` is `⌈s/16⌉ - 1`. -/
theorem getIndex_small {s : Nat} (h1 : 1 ≤ s) (h2 : s ≤ 512) :
    SizeClass.getIndex s = (s + 15) / 16 - 1 := by
  unfold SizeClass.getIndex
  rw [if_pos (by simpa [MAX_SMALL_SZ] using h2)]
  show subOne64 ((s + STEP_SMALL - 1) / STEP_SMALL) = (s + 15) / 16 - 1
  have hs : (s + STEP_SMALL - 1) / STEP_SMALL = (s + 15) / 16 := by
    simp [STEP_SMALL, ALIGNMENT]
  rw [hs]
  exact subOne64_eq_sub (by omega) (by unfold U64; omega)

theorem getIndex_medium {s : Nat} (h1 : 512 < s) (h2 : s ≤ 4096) :
    SizeClass.getIndex s = 32 + ((s - 512 + 63) / 64 - 1) := by
  unfold SizeClass.getIndex
  rw [if_neg (by simp [MAX_SMALL_SZ]; omega), if_pos (by simp [MAX_MEDIUM_SZ]; omega)]
  show CLS_SMALL + subOne64 ((s - MAX_SMALL_SZ + STEP_MEDIUM - 1) / STEP_MEDIUM) = _
  rw [CLS_SMALL_eq]
  have : (s - MAX_SMALL_SZ + STEP_MEDIUM - 1) / STEP_MEDIUM = (s - 512 + 63) / 64 := by
    simp [MAX_SMALL_SZ, STEP_MEDIUM]
  rw [this, subOne64_eq_sub (by omega) (by unfold U64; omega)]

theorem getIndex_large {s : Nat} (h1 : 4096 < s) (h2 : s ≤ 65536) :
    SizeClass.getIndex s = 88 + ((s - 4096 + 511) / 512 - 1) := by
  unfold SizeClass.getIndex
  rw [if_neg (by simp [MAX_SMALL_SZ]; omega), if_neg (by simp [MAX_MEDIUM_SZ]; omega),
    if_pos (by simp [MAX_LARGE_SZ]; omega)]
  show CLS_SMALL + CLS_MEDIUM + subOne64 ((s - MAX_MEDIUM_SZ + STEP_LARGE - 1) / STEP_LARGE) = _
  rw [CLS_SMALL_eq, CLS_MEDIUM_eq]
  have : (s - MAX_MEDIUM_SZ + STEP_LARGE - 1) / STEP_LARGE = (s - 4096 + 511) / 512 := by
    simp [MAX_MEDIUM_SZ, STEP_LARGE]
  rw [this, subOne64_eq_sub (by omega) (by unfold U64; omega)]

theorem getIndex_xlarge {s : Nat} (h1 : 65536 < s) (h2 : s ≤ 262144) :
    SizeClass.getIndex s = 208 + ((s - 65536 + 4095) / 4096 - 1) := by
  unfold SizeClass.getIndex
  rw [if_neg (by simp [MAX_SMALL_SZ]; omega), if_neg (by simp [MAX_MEDIUM_SZ]; omega),
    if_neg (by simp [MAX_LARGE_SZ]; omega)]
  show CLS_SMALL + CLS_MEDIUM + CLS_LARGE +
      subOne64 ((s - MAX_LARGE_SZ + STEP_XLARGE - 1) / STEP_XLARGE) = _
  rw [CLS_SMALL_eq, CLS_MEDIUM_eq, CLS_LARGE_eq]
  have : (s - MAX_LARGE_SZ + STEP_XLARGE - 1) / STEP_XLARGE = (s - 65536 + 4095) / 4096 := by
    simp [MAX_LARGE_SZ, STEP_XLARGE]
  rw [this, subOne64_eq_sub (by omega) (by unfold U64; omega)]

theorem getSize_small {i : Nat} (h : i < 32) : SizeClass.getSize i = (i + 1) * 16 := by
  unfold SizeClass.getSize
  rw [if_pos (by rw [CLS_SMALL_eq]; omega)]
  simp [STEP_SMALL, ALIGNMENT]

theorem getSize_medium {i : Nat} (h1 : 32 ≤ i) (h2 : i < 88) :
    SizeClass.getSize i = 512 + (i - 32 + 1) * 64 := by
  unfold SizeClass.getSize
  rw [if_neg (by rw [CLS_SMALL_eq]; omega),
    if_pos (by rw [CLS_SMALL_eq, CLS_MEDIUM_eq]; omega)]
  simp [MAX_SMALL_SZ, STEP_MEDIUM, CLS_SMALL_eq]

theorem getSize_large {i : Nat} (h1 : 88 ≤ i) (h2 : i < 208) :
    SizeClass.getSize i = 4096 + (i - 88 + 1) * 512 := by
  unfold SizeClass.getSize
  rw [if_neg (by rw [CLS_SMALL_eq]; omega),
    if_neg (by rw [CLS_SMALL_eq, CLS_MEDIUM_eq]; omega),
    if_pos (by rw [CLS_SMALL_eq, CLS_MEDIUM_eq, CLS_LARGE_eq]; omega)]
  rw [MAX_MEDIUM_SZ, STEP_LARGE, CLS_SMALL_eq, CLS_MEDIUM_eq]
  omega

theorem getSize_xlarge {i : Nat} (h1 : 208 ≤ i) (h2 : i < 256) :
    SizeClass.getSize i = 65536 + (i - 208 + 1) * 4096 := by
  unfold SizeClass.getSize
  rw [if_neg (by rw [CLS_SMALL_eq]; omega),
    if_neg (by rw [CLS_SMALL_eq, CLS_MEDIUM_eq]; omega),
    if_neg (by rw [CLS_SMALL_eq, CLS_MEDIUM_eq, CLS_LARGE_eq]; omega),
    if_pos (by rw [CLS_SMALL_eq, CLS_MEDIUM_eq, CLS_LARGE_eq, CLS_XLARGE_eq]; omega)]
  rw [MAX_LARGE_SZ, STEP_XLARGE, CLS_SMALL_eq, CLS_MEDIUM_eq, CLS_LARGE_eq]
  omega

/-- Round-trip on indices, checked over the whole class table. -/
theorem getIndex_getSize : ∀ i, i < NUM_CLASSES →
    SizeClass.getIndex (SizeClass.getSize i) = i := by decide

/-- `getSize` is strictly monotone on the class table. -/
theorem getSize_strictMono : ∀ j, j < NUM_CLASSES → ∀ i, i < j →
    SizeClass.getSize i < SizeClass.getSize j := by decide

/-- For in-range request sizes, `getIndex` yields a valid index whose class
size covers the request. -/
theorem getIndex_covers {s : Nat} (h1 : 1 ≤ s) (h2 : s ≤ MAX_BYTES) :
    SizeClass.getIndex s < NUM_CLASSES ∧ s ≤ SizeClass.getSize (SizeClass.getIndex s) := by
  rw [NUM_CLASSES_eq]
  rw [MAX_BYTES] at h2
  rcases le_or_lt s 512 with hs | hs
  · rw [getIndex_small h1 hs]
    have hlt : (s + 15) / 16 - 1 < 32 := by omega
    rw [getSize_small hlt]
    omega
  · rcases le_or_lt s 4096 with hm | hm
    · rw [getIndex_medium hs hm]
      have h32 : 32 ≤ 32 + ((s - 512 + 63) / 64 - 1) := by omega
      have h88 : 32 + ((s - 512 + 63) / 64 - 1) < 88 := by omega
      rw [getSize_medium h32 h88]
      omega
    · rcases le_or_lt s 65536 with hl | hl
      · rw [getIndex_large hm hl]
        have h88 : 88 ≤ 88 + ((s - 4096 + 511) / 512 - 1) := by omega
        have h208 : 88 + ((s - 4096 + 511) / 512 - 1) < 208 := by omega
        rw [getSize_large h88 h208]
        omega
      · rw [getIndex_xlarge hl h2]
        have h208 : 208 ≤ 208 + ((s - 65536 + 4095) / 4096 - 1) := by omega
        have h256 : 208 + ((s - 65536 + 4095) / 4096 - 1) < 256 := by omega
        rw [getSize_xlarge h208 h256]
        omega

/-- The class just below `getIndex s` (when there is one) is too small for `s`. -/
theorem getSize_pred_lt {s : Nat} (h1 : 1 ≤ s) (h2 : s ≤ MAX_BYTES)
    (h0 : 0 < SizeClass.getIndex s) :
    SizeClass.getSize (SizeClass.getIndex s - 1) < s := by
  rw [MAX_BYTES] at h2
  rcases le_or_lt s 512 with hs | hs
  · rw [getIndex_small h1 hs] at h0 ⊢
    rw [getSize_small (by omega)]
    omega
  · rcases le_or_lt s 4096 with hm | hm
    · rw [getIndex_medium hs hm] at h0 ⊢
      set o : Nat := (s - 512 + 63) / 64 - 1 with ho
      rcases Nat.eq_zero_or_pos o with hz | hp
      · rw [hz]
        rw [getSize_small (by omega)]
        omega
      · have : 32 + o - 1 = 32 + (o - 1) := by omega
        rw [this, getSize_medium (by omega) (by omega)]
        omega
    · rcases le_or_lt s 65536 with hl | hl
      · rw [getIndex_large hm hl] at h0 ⊢
        set o : Nat := (s - 4096 + 511) / 512 - 1 with ho
        rcases Nat.eq_zero_or_pos o with hz | hp
        · rw [hz]
          rw [getSize_medium (by omega) (by omega)]
          omega
        · have : 88 + o - 1 = 88 + (o - 1) := by omega
          rw [this, getSize_large (by omega) (by omega)]
          omega
      · rw [getIndex_xlarge hl h2] at h0 ⊢
        set o : Nat := (s - 65536 + 4095) / 4096 - 1 with ho
        rcases Nat.eq_zero_or_pos o with hz | hp
        · rw [hz]
          rw [getSize_large (by omega) (by omega)]
          omega
        · have : 208 + o - 1 = 208 + (o - 1) := by omega
          rw [this, getSize_xlarge (by omega) (by omega)]
          omega

/-- C5: `getSize` inverts `getIndex` on the class table, and for every byte
size `1 ≤ s ≤ MAX_BYTES` the class chosen by `getIndex s` has the smallest
representative size that still covers `s`. -/
theorem c5_sizeclass_inverse :
    (∀ i, i < NUM_CLASSES → SizeClass.getIndex (SizeClass.getSize i) = i) ∧
    (∀ s, 1 ≤ s → s ≤ MAX_BYTES →
      SizeClass.getIndex s < NUM_CLASSES ∧
      s ≤ SizeClass.getSize (SizeClass.getIndex s) ∧
      ∀ j, j < NUM_CLASSES → s ≤ SizeClass.getSize j →
        SizeClass.getSize (SizeClass.getIndex s) ≤ SizeClass.getSize j) := by
  refine ⟨getIndex_getSize, fun s h1 h2 => ?_⟩
  obtain ⟨hlt, hcov⟩ := getIndex_covers h1 h2
  refine ⟨hlt, hcov, fun j hj hsj => ?_⟩
  by_contra hcon
  push_neg at hcon
  have hjlt : j < SizeClass.getIndex s := by
    by_contra hge
    push_neg at hge
    rcases Nat.lt_or_ge (SizeClass.getIndex s) j with h | h
    · exact absurd (getSize_strictMono j hj _ h) (by omega)
    · have : j = SizeClass.getIndex s := by omega
      subst this
      omega
  have h0 : 0 < SizeClass.getIndex s := by omega
  have hpred := getSize_pred_lt h1 h2 h0
  have : SizeClass.getSize j ≤ SizeClass.getSize (SizeClass.getIndex s - 1) := by
    rcases Nat.lt_or_ge j (SizeClass.getIndex s - 1) with h | h
    · exact le_of_lt (getSize_strictMono _ (by omega) _ h)
    · have : j = SizeClass.getIndex s - 1 := by omega
      subst this
      exact le_rfl
  omega

/-- Witness for C5 at concrete inputs. -/
theorem c5_sizeclass_inverse_witness :
    SizeClass.getIndex (SizeClass.getSize 7) = 7 ∧
    (SizeClass.getIndex 100 < NUM_CLASSES ∧
      100 ≤ SizeClass.getSize (SizeClass.getIndex 100) ∧
      ∀ j, j < NUM_CLASSES → 100 ≤ SizeClass.getSize j →
        SizeClass.getSize (SizeClass.getIndex 100) ≤ SizeClass.getSize j) :=
  ⟨c5_sizeclass_inverse.1 7 (by decide), c5_sizeclass_inverse.2 100 (by decide) (by decide)⟩

/-- C10: `SizeClass::getIndex 0` underflows to `SIZE_MAX = 2^64 - 1`, which is
not a valid class index, and the public path is safe only because
`ThreadCache::allocate` first promotes size `0` to `ALIGNMENT`, for which the
computed index is `0`, a valid index. -/
theorem c10_getIndex_zero_underflow :
    SizeClass.getIndex 0 = 2 ^ 64 - 1 ∧
    ¬ SizeClass.getIndex 0 < NUM_CLASSES ∧
    SizeClass.getIndex (allocClampedSize 0) = 0 ∧
    SizeClass.getIndex (allocClampedSize 0) < NUM_CLASSES := by decide

/-! ### Lemmas about the bit primitives -/

theorem ctz_of_odd {n : Nat} (h : n % 2 = 1) : ctz n = 0 := by
  have hn : n ≠ 0 := by omega
  unfold ctz
  simp [hn, h]

theorem ctz_of_even {n : Nat} (hn : n ≠ 0) (h : n % 2 = 0) : ctz n = ctz (n / 2) + 1 := by
  conv_lhs => unfold ctz
  simp [hn, h]

/-- The bit at `ctz n` is set, everything below it is clear. -/
theorem ctz_testBit : ∀ n, n ≠ 0 →
    n.testBit (ctz n) = true ∧ ∀ j, j < ctz n → n.testBit j = false := by
  intro n
  induction n using Nat.strong_induction_on with
  | _ n ih =>
    intro hn
    by_cases h : n % 2 = 1
    · rw [ctz_of_odd h]
      refine ⟨?_, fun j hj => absurd hj (by omega)⟩
      rw [Nat.testBit_zero]
      simp [h]
    · have h0 : n % 2 = 0 := by omega
      rw [ctz_of_even hn h0]
      have hn2 : n / 2 ≠ 0 := by omega
      obtain ⟨ih1, ih2⟩ := ih (n / 2) (by omega) hn2
      refine ⟨?_, fun j hj => ?_⟩
      · rw [Nat.testBit_succ]
        exact ih1
      · cases j with
        | zero =>
          rw [Nat.testBit_zero]
          simp [h0]
        | succ j =>
          rw [Nat.testBit_succ]
          exact ih2 j (by omega)

/-- `clearLow` clears exactly the bit at `ctz n`. -/
theorem clearLow_testBit : ∀ n, n ≠ 0 → ∀ j,
    (clearLow n).testBit j = if j = ctz n then false else n.testBit j := by
  intro n
  induction n using Nat.strong_induction_on with
  | _ n ih =>
    intro hn j
    by_cases h : n % 2 = 1
    · rw [ctz_of_odd h]
      cases j with
      | zero =>
        rw [if_pos rfl]
        unfold clearLow
        rw [Nat.testBit_land, Nat.testBit_zero (n - 1)]
        have h1 : (n - 1) % 2 = 0 := by omega
        simp [h1]
      | succ j =>
        rw [if_neg (by omega)]
        unfold clearLow
        rw [Nat.testBit_land, Nat.testBit_succ, Nat.testBit_succ]
        have e : (n - 1) / 2 = n / 2 := by omega
        rw [e, Bool.and_self]
    · have h0 : n % 2 = 0 := by omega
      rw [ctz_of_even hn h0]
      cases j with
      | zero =>
        rw [if_neg (by omega)]
        unfold clearLow
        rw [Nat.testBit_land, Nat.testBit_zero, Nat.testBit_zero]
        simp [h0]
      | succ j =>
        unfold clearLow
        rw [Nat.testBit_land, Nat.testBit_succ, Nat.testBit_succ]
        have e : (n - 1) / 2 = n / 2 - 1 := by omega
        rw [e]
        have hn2 : n / 2 ≠ 0 := by omega
        have hrec := ih (n / 2) (by omega) hn2 j
        unfold clearLow at hrec
        rw [Nat.testBit_land] at hrec
        rw [hrec]
        by_cases hj : j = ctz (n / 2)
        · simp [hj]
        · rw [if_neg hj, if_neg (by omega)]

theorem clearLow_lt {n : Nat} (hn : n ≠ 0) : clearLow n < n :=
  Nat.lt_of_le_of_lt Nat.and_le_right (by omega)

theorem bits_zero : bits 0 = [] := by
  unfold bits
  simp

theorem bits_cons {n : Nat} (h : n ≠ 0) : bits n = ctz n :: bits (clearLow n) := by
  conv_lhs => unfold bits
  simp [h]

/-- Membership in `bits n` is exactly "the bit is set". -/
theorem bits_mem : ∀ n j, j ∈ bits n ↔ n.testBit j = true := by
  intro n
  induction n using Nat.strong_induction_on with
  | _ n ih =>
    intro j
    by_cases hn : n = 0
    · subst hn
      simp [bits_zero, Nat.zero_testBit]
    · rw [bits_cons hn, List.mem_cons, ih (clearLow n) (clearLow_lt hn) j]
      rw [clearLow_testBit n hn j]
      by_cases hj : j = ctz n
      · simp [hj, (ctz_testBit n hn).1]
      · simp [hj]

/-- `bits n` is strictly increasing. -/
theorem bits_pairwise : ∀ n, (bits n).Pairwise (· < ·) := by
  intro n
  induction n using Nat.strong_induction_on with
  | _ n ih =>
    by_cases hn : n = 0
    · subst hn
      simp [bits_zero]
    · rw [bits_cons hn]
      refine List.Pairwise.cons (fun b hb => ?_) (ih (clearLow n) (clearLow_lt hn))
      have hbit : (clearLow n).testBit b = true := (bits_mem _ b).mp hb
      rw [clearLow_testBit n hn b] at hbit
      by_cases he : b = ctz n
      · rw [if_pos he] at hbit
        exact absurd hbit (by simp)
      · rw [if_neg he] at hbit
        rcases Nat.lt_or_ge b (ctz n) with hlt | hge
        · exact absurd hbit (by simp [(ctz_testBit n hn).2 b hlt])
        · omega

theorem bits_nodup (n : Nat) : (bits n).Nodup :=
  (bits_pairwise n).imp Nat.ne_of_lt

theorem mem_bits_lt {n j : Nat} (hn : n < 2 ^ 32) (h : j ∈ bits n) : j < 32 := by
  by_contra hge
  push_neg at hge
  have hbit : n.testBit j = true := (bits_mem n j).mp h
  have : n < 2 ^ j := lt_of_lt_of_le hn (Nat.pow_le_pow_right (by omega) hge)
  rw [Nat.testBit_lt_two_pow this] at hbit
  exact Bool.false_ne_true hbit

theorem comp32_lt {x : Nat} (hx : x < 2 ^ 32) : comp32 x < 2 ^ 32 :=
  Nat.xor_lt_two_pow hx (by omega)

/-- Below bit 32, `comp32` flips every bit. -/
theorem comp32_testBit_lt {x j : Nat} (hj : j < 32) :
    (comp32 x).testBit j = !(x.testBit j) := by
  unfold comp32
  rw [Nat.testBit_xor, Nat.testBit_two_pow_sub_one]
  simp [hj]

/-- `bits (comp32 x)` enumerates exactly the clear bits of `x`. -/
theorem bits_comp32_length {x : Nat} (hx : x < 2 ^ 32) :
    (bits (comp32 x)).length = zeros32 x := by
  have hperm : (bits (comp32 x)).Perm ((List.range 32).filter (fun j => !(x.testBit j))) := by
    rw [List.perm_ext_iff_of_nodup (bits_nodup _) ((List.nodup_range 32).filter _)]
    intro j
    rw [bits_mem, List.mem_filter, List.mem_range]
    constructor
    · intro h
      have hj : j < 32 := by
        by_contra hge
        push_neg at hge
        have : comp32 x < 2 ^ j :=
          lt_of_lt_of_le (comp32_lt hx) (Nat.pow_le_pow_right (by omega) hge)
        rw [Nat.testBit_lt_two_pow this] at h
        exact Bool.false_ne_true h
      rw [comp32_testBit_lt hj] at h
      exact ⟨hj, h⟩
    · intro ⟨hj, h⟩
      rw [comp32_testBit_lt hj, h]
  rw [hperm.length_eq]
  rfl

/-- Characterization of the inner word loop: on a word whose set `avail` bits
are disjoint from the set bits of `x`, it extracts the first `need` positions
of `bits avail`, sets exactly those bits in `x`, and decrements `fc` once per
extracted bit. -/
theorem wordLoop_spec : ∀ avail x fc need,
    (∀ j, avail.testBit j = true → x.testBit j = false) →
    (wordLoop avail x fc need).1 = (bits avail).take need ∧
    (∀ j, (wordLoop avail x fc need).2.1.testBit j =
        ((x.testBit j) || decide (j ∈ (bits avail).take need))) ∧
    (wordLoop avail x fc need).2.2 = fc - ((bits avail).take need).length := by
  intro avail
  induction avail using Nat.strong_induction_on with
  | _ avail ih =>
    intro x fc need hdisj
    by_cases h0 : avail = 0 ∨ need = 0
    · have hnil : (bits avail).take need = [] := by
        rcases h0 with h | h
        · simp [h, bits_zero]
        · simp [h]
      unfold wordLoop
      rw [if_pos h0]
      simp [hnil]
    · push_neg at h0
      obtain ⟨ha, hn⟩ := h0
      obtain ⟨m, rfl⟩ : ∃ m, need = m + 1 := ⟨need - 1, by omega⟩
      have hbit : avail.testBit (ctz avail) = true := (ctz_testBit avail ha).1
      have hx : x.testBit (ctz avail) = false := hdisj _ hbit
      have hand : x &&& 2 ^ ctz avail = 0 := by
        rw [Nat.and_two_pow, hx]
        simp
      have hdisj' : ∀ j, (clearLow avail).testBit j = true →
          (x ||| 2 ^ ctz avail).testBit j = false := by
        intro j hj
        rw [clearLow_testBit avail ha j] at hj
        by_cases hje : j = ctz avail
        · rw [if_pos hje] at hj
          exact absurd hj (by simp)
        · rw [if_neg hje] at hj
          rw [Nat.testBit_lor, hdisj j hj, Nat.testBit_two_pow]
          simp [Ne.symm hje]
      obtain ⟨ih1, ih2, ih3⟩ :=
        ih (clearLow avail) (clearLow_lt ha) (x ||| 2 ^ ctz avail) (fc - 1) m hdisj'
      have hstep : wordLoop avail x fc (m + 1) =
          (ctz avail :: (wordLoop (clearLow avail) (x ||| 2 ^ ctz avail) (fc - 1) m).1,
            (wordLoop (clearLow avail) (x ||| 2 ^ ctz avail) (fc - 1) m).2) := by
        conv_lhs => unfold wordLoop
        rw [if_neg (by push_neg; exact ⟨ha, by omega⟩)]
        simp [hand]
      rw [hstep, bits_cons ha, List.take_succ_cons]
      refine ⟨by rw [ih1], fun j => ?_, ?_⟩
      · rw [ih2 j, Nat.testBit_lor, Nat.testBit_two_pow]
        simp only [List.mem_cons]
        by_cases hje : j = ctz avail
        · simp [hje]
        · simp [hje, Ne.symm hje]
      · rw [ih3]
        have : ((bits (clearLow avail)).take m).length ≤ m := by
          rw [List.length_take]
          omega
        simp only [List.length_cons]
        omega

/-! ### Counting lemmas for the free-count bookkeeping -/

/-- Filtering away one additional element of a duplicate-free list that the
predicate accepts drops the filtered length by exactly one. -/
theorem length_filter_erase_one :
    ∀ (l : List Nat) (q : Nat → Bool) (b : Nat), l.Nodup → b ∈ l → q b = true →
      (l.filter (fun j => q j && !(decide (j = b)))).length + 1 = (l.filter q).length := by
  intro l
  induction l with
  | nil => intro q b _ hb; exact absurd hb (List.not_mem_nil b)
  | cons a t ih =>
    intro q b hnd hb hq
    obtain ⟨hat, htnd⟩ := List.nodup_cons.mp hnd
    by_cases hab : a = b
    · subst hab
      have h1 : t.filter (fun j => q j && !(decide (j = a))) = t.filter q := by
        apply List.filter_congr
        intro j hj
        have : j ≠ a := fun he => hat (he ▸ hj)
        simp [this]
      rw [List.filter_cons, List.filter_cons, h1]
      simp [hq]
    · have hbt : b ∈ t := by
        rcases List.mem_cons.mp hb with h | h
        · exact absurd h.symm hab
        · exact h
      have := ih q b htnd hbt hq
      rw [List.filter_cons, List.filter_cons]
      by_cases hqa : q a = true
      · simp only [hqa, hab, decide_False, Bool.not_false, Bool.and_true, if_true]
        simp only [List.length_cons]
        omega
      · have hqa' : q a = false := by simp at hqa; exact hqa
        simp only [hqa', Bool.false_and]
        simp only [List.length_cons] at *
        simp
        omega

/-- Filtering away a duplicate-free set `bs` of accepted elements drops the
filtered length by `bs.length`. -/
theorem length_filter_diff :
    ∀ (bs : List Nat) (l : List Nat) (q : Nat → Bool), l.Nodup → bs.Nodup →
      (∀ b ∈ bs, b ∈ l ∧ q b = true) →
      (l.filter (fun j => q j && !(decide (j ∈ bs)))).length + bs.length
        = (l.filter q).length := by
  intro bs
  induction bs with
  | nil =>
    intro l q hnd _ _
    have h1 : l.filter (fun j => q j && !(decide (j ∈ ([] : List Nat)))) = l.filter q := by
      apply List.filter_congr
      intro j _
      simp
    rw [h1]
    simp
  | cons b bs' ih =>
    intro l q hnd hbnd hbs
    obtain ⟨hbb, hbnd'⟩ := List.nodup_cons.mp hbnd
    have h1 : l.filter (fun j => q j && !(decide (j ∈ b :: bs')))
        = l.filter (fun j => (q j && !(decide (j ∈ bs'))) && !(decide (j = b))) := by
      apply List.filter_congr
      intro j _
      by_cases h2 : j = b <;> by_cases h3 : j ∈ bs' <;>
        simp [h2, h3, List.mem_cons, Bool.and_assoc, Bool.and_comm]
    have h4 : (fun j => q j && !(decide (j ∈ bs'))) b = true := by
      simp [(hbs b (List.mem_cons_self b bs')).2, hbb]
    have h5 : (l.filter (fun j => (q j && !(decide (j ∈ bs'))) && !(decide (j = b)))).length + 1
        = (l.filter (fun j => q j && !(decide (j ∈ bs')))).length :=
      length_filter_erase_one l (fun j => q j && !(decide (j ∈ bs'))) b hnd
        (hbs b (List.mem_cons_self b bs')).1 h4
    have h6 := ih l q hnd hbnd' (fun bb hbb2 => hbs bb (List.mem_cons_of_mem b hbb2))
    rw [h1]
    simp only [List.length_cons]
    omega

/-- Setting a duplicate-free collection of previously-clear low bits in a word
removes exactly that many zeros. -/
theorem zeros32_or_bits {x x' : Nat} (bs : List Nat)
    (hx' : ∀ j, x'.testBit j = ((x.testBit j) || decide (j ∈ bs)))
    (hnd : bs.Nodup) (hbs : ∀ b ∈ bs, b < 32 ∧ x.testBit b = false) :
    zeros32 x' + bs.length = zeros32 x := by
  unfold zeros32
  have h1 : (List.range 32).filter (fun j => !(x'.testBit j))
      = (List.range 32).filter (fun j => (!(x.testBit j)) && !(decide (j ∈ bs))) := by
    apply List.filter_congr
    intro j _
    rw [hx', Bool.not_or]
  rw [h1]
  exact length_filter_diff bs (List.range 32) (fun j => !(x.testBit j)) (List.nodup_range 32)
    hnd (fun b hb => ⟨List.mem_range.mpr (hbs b hb).1, by simp [(hbs b hb).2]⟩)

/-- A number all of whose bits at positions `≥ 32` are clear is `< 2^32`. -/
theorem lt_two_pow_32_of_testBit {y : Nat} (h : ∀ j, 32 ≤ j → y.testBit j = false) :
    y < 2 ^ 32 := by
  have hmod : y % 2 ^ 32 = y := by
    apply Nat.eq_of_testBit_eq
    intro j
    rw [Nat.testBit_mod_two_pow]
    by_cases hj : j < 32
    · simp [hj]
    · simp [hj, h j (by omega)]
  calc y = y % 2 ^ 32 := hmod.symm
    _ < 2 ^ 32 := Nat.mod_lt y (by norm_num)

theorem zerosCount_cons (x : Nat) (rest : List Nat) :
    zerosCount (x :: rest) = zeros32 x + zerosCount rest := by
  simp [zerosCount]

/-- Full characterization of the outer bitmap loop of
`SpanTracker::allocateBatch`. -/
theorem batchLoop_spec : ∀ (words : List Nat) (w need fc : Nat),
    (∀ x ∈ words, x < 2 ^ 32) →
    (batchLoop words w need fc).1.length = min (zerosCount words) need ∧
    (batchLoop words w need fc).1.Pairwise (· < ·) ∧
    (∀ i ∈ (batchLoop words w need fc).1, 32 * w ≤ i ∧ i < 32 * w + 32 * words.length) ∧
    (batchLoop words w need fc).2.1.length = words.length ∧
    (∀ y ∈ (batchLoop words w need fc).2.1, y < 2 ^ 32) ∧
    (∀ k b, b < 32 → ((batchLoop words w need fc).2.1.getD k 0).testBit b =
        (((words.getD k 0).testBit b) ||
          decide (32 * (w + k) + b ∈ (batchLoop words w need fc).1))) ∧
    (∀ i ∈ (batchLoop words w need fc).1,
        ((words.getD ((i - 32 * w) / 32) 0)).testBit ((i - 32 * w) % 32) = false) ∧
    (batchLoop words w need fc).2.2 = fc - (batchLoop words w need fc).1.length ∧
    zerosCount (batchLoop words w need fc).2.1 + (batchLoop words w need fc).1.length
      = zerosCount words := by
  intro words
  induction words with
  | nil =>
    intro w need fc _
    simp [batchLoop, zerosCount]
  | cons x rest ih =>
    intro w need fc hw
    have hx : x < 2 ^ 32 := hw x (List.mem_cons_self x rest)
    have hrest : ∀ y ∈ rest, y < 2 ^ 32 := fun y hy => hw y (List.mem_cons_of_mem x hy)
    have hdisj : ∀ j, (comp32 x).testBit j = true → x.testBit j = false := by
      intro j hj
      by_cases hj32 : j < 32
      · rw [comp32_testBit_lt hj32] at hj
        simpa using hj
      · have : comp32 x < 2 ^ j :=
          lt_of_lt_of_le (comp32_lt hx) (Nat.pow_le_pow_right (by omega) (by omega))
        rw [Nat.testBit_lt_two_pow this] at hj
        exact absurd hj (by simp)
    obtain ⟨w1, w2, w3⟩ := wordLoop_spec (comp32 x) x fc need hdisj
    set W := wordLoop (comp32 x) x fc need with hW
    set bs := (bits (comp32 x)).take need with hbsdef
    have hbs_sub : ∀ b ∈ bs, b ∈ bits (comp32 x) := fun b hb => List.take_subset _ _ hb
    have hbs_lt : ∀ b ∈ bs, b < 32 := fun b hb => mem_bits_lt (comp32_lt hx) (hbs_sub b hb)
    have hbs_bit : ∀ b ∈ bs, x.testBit b = false := by
      intro b hb
      have h1 := (bits_mem _ b).mp (hbs_sub b hb)
      rw [comp32_testBit_lt (hbs_lt b hb)] at h1
      simpa using h1
    have hbs_nd : bs.Nodup := (List.take_sublist _ _).nodup (bits_nodup _)
    have hbs_pw : bs.Pairwise (· < ·) := List.Pairwise.sublist (List.take_sublist _ _) (bits_pairwise _)
    have hbs_len : bs.length = min need (zeros32 x) := by
      rw [hbsdef, List.length_take, bits_comp32_length hx]
    have hx'zero : zeros32 W.2.1 + bs.length = zeros32 x :=
      zeros32_or_bits bs w2 hbs_nd (fun b hb => ⟨hbs_lt b hb, hbs_bit b hb⟩)
    have hx'lt : W.2.1 < 2 ^ 32 := by
      apply lt_two_pow_32_of_testBit
      intro j hj
      rw [w2 j]
      have h1 : x.testBit j = false := Nat.testBit_lt_two_pow
        (lt_of_lt_of_le hx (Nat.pow_le_pow_right (by omega) hj))
      have h2 : j ∉ bs := fun hmem => absurd (hbs_lt j hmem) (by omega)
      simp [h1, h2]
    obtain ⟨i1, i2, i3, i4, i5, i6, i7, i8, i9⟩ := ih (w + 1) (need - bs.length) W.2.2 hrest
    set R := batchLoop rest (w + 1) (need - bs.length) W.2.2 with hR
    have hstep : batchLoop (x :: rest) w need fc =
        (W.1.map (fun b => 32 * w + b) ++ R.1, W.2.1 :: R.2.1, R.2.2) := by
      show (let r := wordLoop (comp32 x) x fc need
        let r2 := batchLoop rest (w + 1) (need - r.1.length) r.2.2
        (r.1.map (fun b => 32 * w + b) ++ r2.1, r.2.1 :: r2.2.1, r2.2.2)) = _
      simp only [← hW, w1, ← hR]
    rw [hstep]
    have hmap_mem : ∀ i, i ∈ W.1.map (fun b => 32 * w + b) ↔ ∃ b ∈ bs, 32 * w + b = i := by
      intro i
      rw [w1, List.mem_map]
    have hmap_bound : ∀ i ∈ W.1.map (fun b => 32 * w + b), 32 * w ≤ i ∧ i < 32 * w + 32 := by
      intro i hi
      obtain ⟨b, hb, rfl⟩ := (hmap_mem i).mp hi
      have := hbs_lt b hb
      omega
    have hlen1 : (W.1.map (fun b => 32 * w + b)).length = bs.length := by
      rw [List.length_map, w1]
    refine ⟨?_, ?_, ?_, ?_, ?_, ?_, ?_, ?_, ?_⟩
    · -- total length
      rw [List.length_append, hlen1, i1, zerosCount_cons]
      omega
    · -- pairwise
      rw [List.pairwise_append]
      refine ⟨?_, i2, ?_⟩
      · rw [w1, List.pairwise_map]
        exact hbs_pw.imp (by omega)
      · intro a ha b hb
        have h1 := (hmap_bound a ha).2
        have h2 := (i3 b hb).1
        omega
    · -- bounds
      intro i hi
      rcases List.mem_append.mp hi with h | h
      · have := hmap_bound i h
        simp only [List.length_cons]
        omega
      · have := i3 i h
        simp only [List.length_cons]
        omega
    · -- words length
      simp [i4]
    · -- word bound
      intro y hy
      rcases List.mem_cons.mp hy with h | h
      · exact h ▸ hx'lt
      · exact i5 y h
    · -- new bit characterization
      intro k b hb32
      cases k with
      | zero =>
        rw [List.getD_cons_zero, List.getD_cons_zero, w2 b]
        have hiff : b ∈ bs ↔ 32 * (w + 0) + b ∈ W.1.map (fun j => 32 * w + j) ++ R.1 := by
          rw [List.mem_append, hmap_mem]
          constructor
          · intro h
            exact Or.inl ⟨b, h, by omega⟩
          · intro h
            rcases h with ⟨b', hb', he⟩ | h
            · have : b' = b := by omega
              exact this ▸ hb'
            · have := (i3 _ h).1
              omega
        have : decide (b ∈ bs) = decide (32 * (w + 0) + b ∈ W.1.map (fun j => 32 * w + j) ++ R.1) :=
          decide_eq_decide.mpr hiff
        rw [this]
      | succ k =>
        rw [List.getD_cons_succ, List.getD_cons_succ]
        have h6 := i6 k b hb32
        have harith : 32 * (w + 1 + k) + b = 32 * (w + (k + 1)) + b := by ring_nf
        rw [harith] at h6
        rw [h6]
        have hiff : 32 * (w + (k + 1)) + b ∈ R.1 ↔
            32 * (w + (k + 1)) + b ∈ W.1.map (fun j => 32 * w + j) ++ R.1 := by
          rw [List.mem_append]
          constructor
          · exact Or.inr
          · intro h
            rcases h with h | h
            · have := (hmap_bound _ h).2
              omega
            · exact h
        have : decide (32 * (w + (k + 1)) + b ∈ R.1)
            = decide (32 * (w + (k + 1)) + b ∈ W.1.map (fun j => 32 * w + j) ++ R.1) :=
          decide_eq_decide.mpr hiff
        rw [this]
    · -- old bit clear at extracted indices
      intro i hi
      rcases List.mem_append.mp hi with h | h
      · obtain ⟨b, hb, rfl⟩ := (hmap_mem _).mp h
        have hblt := hbs_lt b hb
        have h1 : (32 * w + b - 32 * w) / 32 = 0 := by omega
        have h2 : (32 * w + b - 32 * w) % 32 = b := by omega
        rw [h1, h2, List.getD_cons_zero]
        exact hbs_bit b hb
      · have h0 := i7 i h
        have hlow := (i3 i h).1
        have h1 : (i - 32 * w) / 32 = (i - 32 * (w + 1)) / 32 + 1 := by omega
        have h2 : (i - 32 * w) % 32 = (i - 32 * (w + 1)) % 32 := by omega
        rw [h1, h2, List.getD_cons_succ]
        exact h0
    · -- freeCount
      rw [i8, w3, List.length_append, hlen1]
      omega
    · -- zeros accounting
      rw [zerosCount_cons, zerosCount_cons, List.length_append, hlen1]
      have hle1 : bs.length ≤ zeros32 x := by omega
      have hle2 : R.1.length ≤ zerosCount rest := by
        rw [i1]
        omega
      omega

/-- C1: for every tracker whose `freeCount` equals the number of 0 bits of its
bitmap (with 32 words each `< 2^32`, as guaranteed by the `uint32_t
bitmap[BITMAP_WORDS]` array), `allocateBatch(maxBatch, blockSize)` with
`maxBatch > 0` returns a list (the source's null-terminated singly-linked
list, threaded in this order) of exactly `min maxBatch freeCount` distinct
blocks in strictly ascending address order, each of address
`spanAddr + i·blockSize` for a bit index `i` flipped 0 → 1 by the call, leaves
all other bits unchanged, and decrements `freeCount` by exactly the returned
count.  (`blockSize > 0` holds for every class's block size; with a zero block
size all addresses would coincide.) -/
theorem c1_allocateBatch_spec (t : SpanTracker) (maxBatch blockSize : Nat)
    (hlen : t.bitmap.length = 32)
    (hwords : ∀ x ∈ t.bitmap, x < 2 ^ 32)
    (hfc : t.freeCount = zerosCount t.bitmap)
    (hmb : 0 < maxBatch) (hbk : 0 < blockSize) :
    AllocateBatchSpec t maxBatch blockSize := by
  obtain ⟨b1, b2, b3, b4, b5, b6, b7, b8, b9⟩ :=
    batchLoop_spec t.bitmap 0 (min maxBatch t.freeCount) t.freeCount hwords
  set B := batchLoop t.bitmap 0 (min maxBatch t.freeCount) t.freeCount with hB
  have hr1 : (t.allocateBatch maxBatch blockSize).1
      = B.1.map (fun i => t.spanAddr + i * blockSize) := rfl
  have hr2 : (t.allocateBatch maxBatch blockSize).2.bitmap = B.2.1 := rfl
  have hr3 : (t.allocateBatch maxBatch blockSize).2.freeCount = B.2.2 := rfl
  have hlenB : B.1.length = min maxBatch t.freeCount := by
    rw [b1, hfc]
    omega
  have hidx_lt : ∀ i ∈ B.1, i < 1024 := by
    intro i hi
    have := (b3 i hi).2
    rw [hlen] at this
    omega
  have hpw : ((t.allocateBatch maxBatch blockSize).1).Pairwise (· < ·) := by
    rw [hr1, List.pairwise_map]
    exact b2.imp (fun h => by
      have := (Nat.mul_lt_mul_right hbk).mpr h
      omega)
  refine ⟨?_, hpw, hpw.imp Nat.ne_of_lt, ⟨B.1, hr1, ?_, ?_⟩, ?_, rfl, rfl⟩
  · rw [hr1, List.length_map, hlenB]
  · intro i hi
    have hmod : i % 32 < 32 := Nat.mod_lt _ (by omega)
    have hold := b7 i hi
    have hnew := b6 (i / 32) (i % 32) hmod
    have he : 32 * (0 + i / 32) + i % 32 = i := by omega
    rw [he] at hnew
    refine ⟨by rw [show SpanTracker.BLOCK_COUNT = 1024 from rfl]; exact hidx_lt i hi, ?_, ?_⟩
    · show (t.bitmap.getD (i / 32) 0).testBit (i % 32) = false
      simpa using hold
    · show ((t.allocateBatch maxBatch blockSize).2.bitmap.getD (i / 32) 0).testBit (i % 32) = true
      rw [hr2, hnew]
      simp [hi]
  · intro i hib hnotin
    have hmod : i % 32 < 32 := Nat.mod_lt _ (by omega)
    have hnew := b6 (i / 32) (i % 32) hmod
    have he : 32 * (0 + i / 32) + i % 32 = i := by omega
    rw [he] at hnew
    show ((t.allocateBatch maxBatch blockSize).2.bitmap.getD (i / 32) 0).testBit (i % 32)
        = (t.bitmap.getD (i / 32) 0).testBit (i % 32)
    rw [hr2, hnew]
    simp [hnotin]
  · rw [hr3, hr1, List.length_map, b8, hlenB]
    omega

/-- Witness for C1: the concrete tracker `c1ex` satisfies all hypotheses and
hence the allocateBatch postcondition. -/
theorem c1_allocateBatch_spec_witness : AllocateBatchSpec c1ex 1 16 :=
  c1_allocateBatch_spec c1ex 1 16 (by decide) (by decide) (by decide)
    (by decide) (by decide)

/-! ### Association-list lemmas -/

theorem alookup_aset_self {α : Type} (l : List (Nat × α)) (k : Nat) (v : α) :
    alookup (aset l k v) k = some v := by
  induction l with
  | nil =>
    show alookup [(k, v)] k = some v
    simp [alookup]
  | cons hd t ih =>
    obtain ⟨a, b⟩ := hd
    show alookup (if a = k then (k, v) :: t else (a, b) :: aset t k v) k = some v
    by_cases hk : a = k
    · rw [if_pos hk]
      show (if k = k then some v else alookup t k) = some v
      rw [if_pos rfl]
    · rw [if_neg hk]
      show (if a = k then some b else alookup (aset t k v) k) = some v
      rw [if_neg hk, ih]

theorem alookup_aset_ne {α : Type} (l : List (Nat × α)) (k k' : Nat) (v : α)
    (h : k' ≠ k) : alookup (aset l k v) k' = alookup l k' := by
  induction l with
  | nil =>
    show alookup [(k, v)] k' = none
    simp [alookup, Ne.symm h]
  | cons hd t ih =>
    obtain ⟨a, b⟩ := hd
    show alookup (if a = k then (k, v) :: t else (a, b) :: aset t k v) k' = _
    by_cases hk : a = k
    · rw [if_pos hk]
      show (if k = k' then some v else alookup t k') = if a = k' then some b else alookup t k'
      rw [if_neg (Ne.symm h), if_neg (by omega)]
    · rw [if_neg hk]
      show (if a = k' then some b else alookup (aset t k v) k')
          = if a = k' then some b else alookup t k'
      by_cases hk' : a = k'
      · rw [if_pos hk', if_pos hk']
      · rw [if_neg hk', if_neg hk', ih]

theorem alookup_aerase_ne {α : Type} (l : List (Nat × α)) (k k' : Nat)
    (h : k' ≠ k) : alookup (aerase l k) k' = alookup l k' := by
  induction l with
  | nil => rfl
  | cons hd t ih =>
    obtain ⟨a, b⟩ := hd
    show alookup (if a = k then t else (a, b) :: aerase t k) k' = _
    by_cases hk : a = k
    · rw [if_pos hk]
      show alookup t k' = if a = k' then some b else alookup t k'
      rw [if_neg (by omega)]
    · rw [if_neg hk]
      show (if a = k' then some b else alookup (aerase t k) k')
          = if a = k' then some b else alookup t k'
      by_cases hk' : a = k'
      · rw [if_pos hk', if_pos hk']
      · rw [if_neg hk', if_neg hk', ih]

theorem mem_aset_self {α : Type} (l : List (Nat × α)) (k : Nat) (v : α) :
    (k, v) ∈ aset l k v := by
  induction l with
  | nil => simp [aset]
  | cons hd t ih =>
    by_cases hk : hd.1 = k
    · simp [aset, hk]
    · simp only [aset, hk, if_false]
      exact List.mem_cons_of_mem hd ih

theorem mem_sset_self {α : Type} (l : List (Nat × α)) (k : Nat) (v : α) :
    (k, v) ∈ sset l k v := by
  induction l with
  | nil => simp [sset]
  | cons hd t ih =>
    by_cases h1 : k = hd.1
    · simp [sset, h1]
    · by_cases h2 : k < hd.1
      · simp [sset, h1, h2]
      · simp only [sset, h1, h2, if_false]
        exact List.mem_cons_of_mem hd ih

/-- `detachFromFreeList` only touches `freeSpans`. -/
theorem detach_fields (s : PCState) (a g : Nat) :
    (detachFromFreeList s a g).1.spanStart = s.spanStart ∧
    (detachFromFreeList s a g).1.spanEnd = s.spanEnd ∧
    (detachFromFreeList s a g).1.mappings = s.mappings := by
  unfold detachFromFreeList
  rcases h : alookup s.freeSpans g with _ | lst
  · simp
  · by_cases hm : a ∈ lst <;> simp [hm]

/-- `pushToFreeList` puts the span on the list of its size. -/
theorem pushToFreeList_mem (s : PCState) (a g : Nat) :
    ∃ kl ∈ (pushToFreeList s a g).freeSpans, kl.1 = g ∧ a ∈ kl.2 := by
  unfold pushToFreeList
  rcases h : alookup s.freeSpans g with _ | lst
  · exact ⟨(g, [a]), mem_sset_self _ _ _, rfl, by simp⟩
  · exact ⟨(g, a :: lst), mem_aset_self _ _ _, rfl, by simp⟩

/-! ### C8: PageCache error paths -/

/-- C8: `allocateSpan 0` returns null without touching any state, and
`deallocateSpan p` for a `p` that is not a registered span start is a silent
no-op leaving `freeSpans`, `spanStart` and `spanEnd` unchanged. -/
theorem c8_pagecache_error_paths (s : PCState) (os : Option Nat) (p : Nat)
    (hp : alookup s.spanStart p = none) :
    allocateSpan s 0 os = (s, none) ∧ deallocateSpan s p = s := by
  constructor
  · unfold allocateSpan
    simp
  · unfold deallocateSpan
    rw [hp]

/-- Witness for C8 on the empty PageCache and an unregistered pointer. -/
theorem c8_pagecache_error_paths_witness :
    allocateSpan pcEmpty 0 none = (pcEmpty, none) ∧ deallocateSpan pcEmpty 42 = pcEmpty :=
  c8_pagecache_error_paths pcEmpty none 42 (by decide)

/-! ### C3: the maximal-free-run invariant is broken by deallocateSpan -/

/-- C3 (code bug): the trace `c3sA … c3sI` stays inside one 4-page OS mapping.
Before the final call the invariant holds and `16384` is a registered span
start; the final `deallocateSpan 16384` leaves two adjacent free spans
`(8192, 2 pages)` and `(16384, 1 page)`, because the left-coalesce arm of the
preceding call erased the just-written end tag of the merged span
(PageCache.cpp line 124 erases the key inserted at line 121), so the claimed
"maximal-free-run" invariant is violated after a `deallocateSpan` of a
registered pointer. -/
theorem c3_coalesce_invariant_violated :
    MFRHolds c3sH ∧
    alookup c3sH.spanStart 16384 = some 1 ∧
    deallocateSpan c3sH 16384 = c3sI ∧
    ¬ MFRHolds c3sI := by
  refine ⟨by decide, by decide, rfl, by decide⟩

/-! ### C7: coalescing does not respect OS-mapping boundaries -/

/-- C7 counterexample: from a state where every span sits inside a single OS
mapping (two separately-mmapped adjacent 1-page spans, the right one free),
`deallocateSpan` of the left one merges across the mapping boundary, producing
a 2-page span contained in no single mapping — refuting the claim that
coalescing merges only spans of the same original OS mapping. -/
theorem c7_cross_mapping_merge :
    SpansWithinOneMapping c7sC ∧
    deallocateSpan c7sC 4096 = c7sD ∧
    ¬ SpansWithinOneMapping c7sD ∧
    alookup c7sD.spanStart 4096 = some 2 ∧
    c7sD.mappings = [(8192, 1), (4096, 1)] :=
  ⟨by decide, rfl, by decide, by decide, by decide⟩

/-- C7 amended: `deallocateSpan` merges a span with *any* registered free
right-neighbour span — the maps `spanStart`/`spanEnd` are global and record no
mapping identity, so adjacency alone (accidental or original) triggers the
merge.  With a registered span `(p, g)`, a registered free span at
`endAddr p g`, and no left-neighbour end tag at `p`, the result holds the
merged span `(p, g + gr)` on the free list of its merged size. -/
theorem c7_amended_merge_ignores_mappings (s : PCState) (p g gr : Nat)
    (hg : 0 < g)
    (hp : alookup s.spanStart p = some g)
    (hr : alookup s.spanStart (endAddr p g) = some gr)
    (hfree : (detachFromFreeList s (endAddr p g) gr).2 = true)
    (hnoleft : alookup s.spanEnd p = none) :
    alookup (deallocateSpan s p).spanStart p = some (g + gr) ∧
    ∃ kl ∈ (deallocateSpan s p).freeSpans, kl.1 = g + gr ∧ p ∈ kl.2 := by
  have hD := detach_fields s (endAddr p g) gr
  have hne1 : p ≠ endAddr p (g + gr) := by
    unfold endAddr PAGE_SIZE
    omega
  have hne2 : p ≠ endAddr p g := by
    unfold endAddr PAGE_SIZE
    omega
  have hne3 : p ≠ endAddr (endAddr p g) gr := by
    unfold endAddr PAGE_SIZE
    omega
  unfold deallocateSpan
  simp only [hp, hr, hfree, if_true]
  have hlook : alookup (aset (aerase (aerase
      (detachFromFreeList s (endAddr p g) gr).1.spanEnd
      (endAddr (endAddr p g) gr)) (endAddr p g)) (endAddr p (g + gr)) p) p = none := by
    rw [alookup_aset_ne _ _ _ _ hne1, alookup_aerase_ne _ _ _ hne2,
      alookup_aerase_ne _ _ _ hne3, hD.2.1, hnoleft]
  simp only [hlook]
  constructor
  · have : ∀ q : PCState, (pushToFreeList q p (g + gr)).spanStart = q.spanStart := by
      intro q
      unfold pushToFreeList
      rcases alookup q.freeSpans (g + gr) with _ | lst <;> simp
    rw [this]
    exact alookup_aset_self _ _ _
  · exact pushToFreeList_mem _ _ _

/-- Witness for the amended C7 theorem at the concrete two-mapping state. -/
theorem c7_amended_merge_ignores_mappings_witness :
    alookup (deallocateSpan c7sC 4096).spanStart 4096 = some (1 + 1) ∧
    ∃ kl ∈ (deallocateSpan c7sC 4096).freeSpans, kl.1 = 1 + 1 ∧ 4096 ∈ kl.2 :=
  c7_amended_merge_ignores_mappings c7sC 4096 1 1 (by decide) (by decide) (by decide)
    (by decide) (by decide)

/-! ### C2: the large-class reverse lookup does not validate the span end -/

/-- C2 counterexample: with one registered span `[4096, 8192)` (sorted map,
key = span start), probing the one-past-end address 8192 returns that span's
tracker even though `8192 < spanAddr + numPages·PAGE_SIZE` fails — the source
(CentralCache.cpp lines 261-273) performs no such validation. -/
theorem c2_counterexample_no_validation :
    KeysSorted c2map ∧
    (∀ kv ∈ c2map, kv.2.spanAddr = kv.1) ∧
    getSpanTrackerLarge c2map 8192 = some c2tr ∧
    ¬ (8192 < c2tr.spanAddr + c2tr.numPages * PAGE_SIZE) := by
  refine ⟨?_, by decide, by decide, by decide⟩
  unfold KeysSorted c2map
  simp

/-- `predLookup` on a key-sorted map returns exactly the entry with the
greatest key `≤ addr` (and `none` iff every key is `> addr`). -/
theorem predLookup_charact {α : Type} :
    ∀ (m : List (Nat × α)) (addr : Nat), KeysSorted m →
      (∀ kv, predLookup m addr = some kv →
        kv ∈ m ∧ kv.1 ≤ addr ∧ ∀ kv' ∈ m, kv'.1 ≤ addr → kv'.1 ≤ kv.1) ∧
      (predLookup m addr = none ↔ ∀ kv ∈ m, addr < kv.1) := by
  intro m
  induction m with
  | nil =>
    intro addr _
    constructor
    · intro kv h
      simp [predLookup] at h
    · simp [predLookup]
  | cons hd t ih =>
    intro addr hs
    have hhd : ∀ y ∈ t, hd.1 < y.1 := (List.pairwise_cons.mp hs).1
    have ht : KeysSorted t := (List.pairwise_cons.mp hs).2
    obtain ⟨ih1, ih2⟩ := ih addr ht
    by_cases hlt : addr < hd.1
    · constructor
      · intro kv h
        unfold predLookup at h
        rw [if_pos hlt] at h
        exact absurd h (by simp)
      · constructor
        · intro _ kv hkv
          rcases List.mem_cons.mp hkv with h | h
          · exact h ▸ hlt
          · exact lt_trans hlt (hhd kv h)
        · intro _
          unfold predLookup
          rw [if_pos hlt]
    · push_neg at hlt
      constructor
      · intro kv h
        unfold predLookup at h
        rw [if_neg (by omega)] at h
        rcases hrec : predLookup t addr with _ | r
        · rw [hrec] at h
          have hkv : kv = hd := by
            simp at h
            exact h.symm
          subst hkv
          refine ⟨List.mem_cons_self _ _, hlt, fun kv' hkv' hle => ?_⟩
          rcases List.mem_cons.mp hkv' with h' | h'
          · exact h' ▸ le_rfl
          · exact absurd hle (by have := (ih2.mp hrec) kv' h'; omega)
        · rw [hrec] at h
          have hkv : kv = r := by
            simp at h
            exact h.symm
          subst hkv
          obtain ⟨hmem, hle, hmax⟩ := ih1 kv hrec
          refine ⟨List.mem_cons_of_mem hd hmem, hle, fun kv' hkv' hle' => ?_⟩
          rcases List.mem_cons.mp hkv' with h' | h'
          · subst h'
            exact le_of_lt (hhd kv hmem)
          · exact hmax kv' h' hle'
      · constructor
        · intro h
          unfold predLookup at h
          rw [if_neg (by omega)] at h
          rcases hrec : predLookup t addr with _ | r <;> rw [hrec] at h <;> simp at h
        · intro h
          exact absurd hlt (by have := h hd (List.mem_cons_self hd t); omega)

/-- C2 amended: for large/x-large classes `getSpanTracker` returns the tracker
of the greatest registered span-start key `≤ block` with *no* end-of-span
validation: an address at or beyond the end of the predecessor span (even past
every registered span) still returns that predecessor tracker, and `none`
arises only when every key exceeds the address. -/
theorem c2_amended_predecessor_no_validation (m : List (Nat × SpanTracker))
    (addr : Nat) (hs : KeysSorted m) :
    (∀ t, getSpanTrackerLarge m addr = some t →
      ∃ k, (k, t) ∈ m ∧ k ≤ addr ∧ ∀ kv' ∈ m, kv'.1 ≤ addr → kv'.1 ≤ k) ∧
    (getSpanTrackerLarge m addr = none ↔ ∀ kv ∈ m, addr < kv.1) := by
  obtain ⟨h1, h2⟩ := predLookup_charact m addr hs
  constructor
  · intro t ht
    unfold getSpanTrackerLarge at ht
    rcases hrec : predLookup m addr with _ | kv
    · rw [hrec] at ht
      exact absurd ht (by simp)
    · rw [hrec] at ht
      have : kv.2 = t := by
        simp at ht
        exact ht
      obtain ⟨hmem, hle, hmax⟩ := h1 kv hrec
      exact ⟨kv.1, by rw [← this]; exact hmem, hle, hmax⟩
  · unfold getSpanTrackerLarge
    rw [← h2]
    rcases predLookup m addr with _ | kv <;> simp

/-- Witness for the amended C2 theorem on the concrete one-span map. -/
theorem c2_amended_predecessor_no_validation_witness :
    (∀ t, getSpanTrackerLarge c2map 8192 = some t →
      ∃ k, (k, t) ∈ c2map ∧ k ≤ 8192 ∧ ∀ kv' ∈ c2map, kv'.1 ≤ 8192 → kv'.1 ≤ k) ∧
    (getSpanTrackerLarge c2map 8192 = none ↔ ∀ kv ∈ c2map, 8192 < kv.1) :=
  c2_amended_predecessor_no_validation c2map 8192 (by unfold KeysSorted c2map; simp)

/-! ### C9: ThreadCache return-to-central policy -/

/-- C9: `deallocate` triggers a return to CentralCache exactly when the
post-push freelist satisfies `count · blockSize > 256 KiB`; when triggered,
`returnToCentralCache` keeps exactly `max(count/2, 1)` blocks — the first
`max(count/2, 1)` nodes of the LIFO list, in order — sets the local count to
that value, severs the list there, and hands the remainder to
`CentralCache::returnRange`.  The hypothesis `count = freeList.length` is the
ThreadCache bookkeeping invariant (the walk of the source would otherwise
dereference past the end of the list). -/
theorem c9_threadcache_return_policy (idx : Nat) (s : TCState) (ptr : Nat)
    (hidx : idx < NUM_CLASSES)
    (hcount : s.count = s.freeList.length) :
    ((tcDeallocate idx s ptr).2 ≠ none ↔
      (s.count + 1) * SizeClass.getSize idx > kPerIndexCap) ∧
    (∀ chain, (tcDeallocate idx s ptr).2 = some chain →
      (tcDeallocate idx s ptr).1.freeList
          = (ptr :: s.freeList).take (max ((s.count + 1) / 2) 1) ∧
      (tcDeallocate idx s ptr).1.count = max ((s.count + 1) / 2) 1 ∧
      chain = (ptr :: s.freeList).drop (max ((s.count + 1) / 2) 1) ∧
      (tcDeallocate idx s ptr).1.freeList.length = max ((s.count + 1) / 2) 1 ∧
      max ((s.count + 1) / 2) 1 < s.count + 1 ∧
      chain ≠ []) ∧
    ((tcDeallocate idx s ptr).2 = none →
      (tcDeallocate idx s ptr).1.freeList = ptr :: s.freeList ∧
      (tcDeallocate idx s ptr).1.count = s.count + 1) := by
  have hblk_le : ∀ i, i < NUM_CLASSES → SizeClass.getSize i ≤ 262144 := by decide
  have hble := hblk_le idx hidx
  by_cases htr : (s.count + 1) * SizeClass.getSize idx > kPerIndexCap
  · have hb : shouldReturnToCentral idx ⟨ptr :: s.freeList, s.count + 1⟩ = true := by
      unfold shouldReturnToCentral
      simpa using htr
    have hcnt2 : 2 ≤ s.count + 1 := by
      by_contra hc
      push_neg at hc
      have : s.count = 0 := by omega
      rw [this] at htr
      unfold kPerIndexCap at htr
      omega
    have hunf : tcDeallocate idx s ptr =
        (⟨(ptr :: s.freeList).take (max ((s.count + 1) / 2) 1), max ((s.count + 1) / 2) 1⟩,
          some ((ptr :: s.freeList).drop (max ((s.count + 1) / 2) 1))) := by
      simp only [tcDeallocate]
      rw [hb]
      rfl
    rw [hunf]
    refine ⟨by simpa using htr, ?_, by simp⟩
    intro chain hchain
    have hchain' : chain = (ptr :: s.freeList).drop (max ((s.count + 1) / 2) 1) := by
      simpa using hchain.symm
    have hkeep_lt : max ((s.count + 1) / 2) 1 < s.count + 1 := by omega
    refine ⟨rfl, rfl, hchain', ?_, hkeep_lt, ?_⟩
    · rw [List.length_take]
      simp only [List.length_cons, ← hcount]
      omega
    · rw [hchain']
      have : ((ptr :: s.freeList).drop (max ((s.count + 1) / 2) 1)).length
          = s.count + 1 - max ((s.count + 1) / 2) 1 := by
        rw [List.length_drop]
        simp only [List.length_cons, ← hcount]
      intro hnil
      rw [hnil] at this
      simp at this
      omega
  · have hb : shouldReturnToCentral idx ⟨ptr :: s.freeList, s.count + 1⟩ = false := by
      unfold shouldReturnToCentral
      simpa using htr
    have hunf : tcDeallocate idx s ptr = (⟨ptr :: s.freeList, s.count + 1⟩, none) := by
      simp only [tcDeallocate]
      rw [hb]
      rfl
    rw [hunf]
    exact ⟨by simpa using htr, by simp, by simp⟩

/-- Witness for C9: x-large class 255 (block size 256 KiB), one resident block,
freeing a second one triggers the half-return. -/
theorem c9_threadcache_return_policy_witness :
    ((tcDeallocate 255 ⟨[100], 1⟩ 200).2 ≠ none ↔
      (1 + 1) * SizeClass.getSize 255 > kPerIndexCap) ∧
    (∀ chain, (tcDeallocate 255 ⟨[100], 1⟩ 200).2 = some chain →
      (tcDeallocate 255 ⟨[100], 1⟩ 200).1.freeList
          = (200 :: [100]).take (max ((1 + 1) / 2) 1) ∧
      (tcDeallocate 255 ⟨[100], 1⟩ 200).1.count = max ((1 + 1) / 2) 1 ∧
      chain = (200 :: [100]).drop (max ((1 + 1) / 2) 1) ∧
      (tcDeallocate 255 ⟨[100], 1⟩ 200).1.freeList.length = max ((1 + 1) / 2) 1 ∧
      max ((1 + 1) / 2) 1 < 1 + 1 ∧
      chain ≠ []) ∧
    ((tcDeallocate 255 ⟨[100], 1⟩ 200).2 = none →
      (tcDeallocate 255 ⟨[100], 1⟩ 200).1.freeList = 200 :: [100] ∧
      (tcDeallocate 255 ⟨[100], 1⟩ 200).1.count = 1 + 1) :=
  c9_threadcache_return_policy 255 ⟨[100], 1⟩ 200 (by decide) (by decide)

/-! ### C6: which classes use the per-page hash map -/

/-- Looking up any of the pages just inserted by the per-page registration
fold yields the tracker key. -/
theorem pageFold_lookup {m : List (Nat × Nat)} {a v : Nat} :
    ∀ (pages j : Nat), j < pages →
      alookup ((List.range pages).foldl (fun acc p => aset acc (a + p * PAGE_SIZE) v) m)
        (a + j * PAGE_SIZE) = some v := by
  intro pages
  induction pages with
  | zero => intro j hj; omega
  | succ n ih =>
    intro j hj
    rw [List.range_succ, List.foldl_append]
    simp only [List.foldl_cons, List.foldl_nil]
    by_cases hjn : j = n
    · subst hjn
      exact alookup_aset_self _ _ _
    · rw [alookup_aset_ne _ _ _ _ (by unfold PAGE_SIZE; omega)]
      exact ih j (by omega)

/-- C6 counterexample: class 60 is a medium class (block size 2368 ≤ 4 KiB),
yet `fetchFromPageCache` registers its span in the ordered span map and adds
no per-page hash entries, and `getSpanTracker` resolves its blocks through the
ordered map, not through a page-base hash lookup — the hash-map/ordered-map
boundary in the source is `index < CLS_MEDIUM` (= 56), not "small or
medium". -/
theorem c6_counterexample_medium_class_uses_ordered_map :
    SizeClass.getSize 60 = 2368 ∧
    SizeClass.getSize 60 ≤ 4096 ∧
    (fetchFromPageCache 60 ccInit (some 4096)).2 = some 4096 ∧
    (fetchFromPageCache 60 ccInit (some 4096)).1.pageMap = [] ∧
    (fetchFromPageCache 60 ccInit (some 4096)).1.spanMap = [(4096, 4096)] ∧
    ccGetSpanTracker 60 (fetchFromPageCache 60 ccInit (some 4096)).1 4096 = some 4096 ∧
    alookup (fetchFromPageCache 60 ccInit (some 4096)).1.pageMap (maskPage 4096) = none := by
  decide

/-- C6 amended: the reverse-index split is at `index < CLS_MEDIUM` (= 56),
i.e. exactly the classes with block size ≤ 2048 use the per-page hash map
(one entry per page of a new span), while all classes with larger blocks —
including the upper-medium classes up to 4 KiB — use the ordered span-start
map; `getSpanTracker` branches on the same bound. -/
theorem c6_amended_registration_boundary (idx : Nat) (s : CCState) (a : Nat)
    (hidx : idx < NUM_CLASSES) :
    (idx < CLS_MEDIUM ↔ SizeClass.getSize idx ≤ 2048) ∧
    (idx < CLS_MEDIUM →
      (fetchFromPageCache idx s (some a)).1.spanMap = s.spanMap ∧
      (∀ j, j < pagesFor idx →
        alookup (fetchFromPageCache idx s (some a)).1.pageMap (a + j * PAGE_SIZE) = some a) ∧
      (∀ addr, ccGetSpanTracker idx (fetchFromPageCache idx s (some a)).1 addr
        = alookup (fetchFromPageCache idx s (some a)).1.pageMap (maskPage addr))) ∧
    (CLS_MEDIUM ≤ idx →
      (fetchFromPageCache idx s (some a)).1.pageMap = s.pageMap ∧
      (fetchFromPageCache idx s (some a)).1.spanMap = sset s.spanMap a a ∧
      (∀ addr, ccGetSpanTracker idx (fetchFromPageCache idx s (some a)).1 addr
        = (predLookup (fetchFromPageCache idx s (some a)).1.spanMap addr).map (·.2))) := by
  have hiff : ∀ i, i < NUM_CLASSES → (i < CLS_MEDIUM ↔ SizeClass.getSize i ≤ 2048) := by
    decide
  refine ⟨hiff idx hidx, ?_, ?_⟩
  · intro hlt
    simp only [fetchFromPageCache, hlt, if_true]
    refine ⟨trivial, fun j hj => pageFold_lookup _ j hj, fun addr => ?_⟩
    unfold ccGetSpanTracker
    rw [if_pos hlt]
  · intro hge
    have hnlt : ¬ idx < CLS_MEDIUM := by omega
    simp only [fetchFromPageCache, hnlt, if_false]
    refine ⟨trivial, trivial, fun addr => ?_⟩
    unfold ccGetSpanTracker
    rw [if_neg hnlt]

/-- Witness for the amended C6 theorem at classes 0 (hash side) and 60
(ordered side): both conclusions instantiated. -/
theorem c6_amended_registration_boundary_witness :
    ((0 < CLS_MEDIUM ↔ SizeClass.getSize 0 ≤ 2048) ∧
      (0 < CLS_MEDIUM →
        (fetchFromPageCache 0 ccInit (some 4096)).1.spanMap = ccInit.spanMap ∧
        (∀ j, j < pagesFor 0 →
          alookup (fetchFromPageCache 0 ccInit (some 4096)).1.pageMap
            (4096 + j * PAGE_SIZE) = some 4096) ∧
        (∀ addr, ccGetSpanTracker 0 (fetchFromPageCache 0 ccInit (some 4096)).1 addr
          = alookup (fetchFromPageCache 0 ccInit (some 4096)).1.pageMap (maskPage addr))) ∧
      (CLS_MEDIUM ≤ 0 →
        (fetchFromPageCache 0 ccInit (some 4096)).1.pageMap = ccInit.pageMap ∧
        (fetchFromPageCache 0 ccInit (some 4096)).1.spanMap = sset ccInit.spanMap 4096 4096 ∧
        (∀ addr, ccGetSpanTracker 0 (fetchFromPageCache 0 ccInit (some 4096)).1 addr
          = (predLookup (fetchFromPageCache 0 ccInit (some 4096)).1.spanMap addr).map (·.2)))) :=
  c6_amended_registration_boundary 0 ccInit 4096 (by decide)

/-! ### More association-list lemmas (for the CentralCache invariant) -/

theorem alookup_eq_some_mem {α : Type} :
    ∀ (l : List (Nat × α)) (k : Nat) (v : α), alookup l k = some v → (k, v) ∈ l := by
  intro l
  induction l with
  | nil => intro k v h; exact absurd h (by simp [alookup])
  | cons hd t ih =>
    intro k v h
    obtain ⟨a, b⟩ := hd
    rw [show alookup ((a, b) :: t) k = if a = k then some b else alookup t k from rfl] at h
    by_cases hk : a = k
    · rw [if_pos hk] at h
      subst hk
      simp at h
      subst h
      exact List.mem_cons_self _ _
    · rw [if_neg hk] at h
      exact List.mem_cons_of_mem _ (ih k v h)

theorem aerase_sublist {α : Type} : ∀ (l : List (Nat × α)) (k : Nat),
    (aerase l k).Sublist l := by
  intro l
  induction l with
  | nil => intro k; simp [aerase]
  | cons hd t ih =>
    intro k
    obtain ⟨a, b⟩ := hd
    show (if a = k then t else (a, b) :: aerase t k).Sublist ((a, b) :: t)
    by_cases hk : a = k
    · rw [if_pos hk]
      exact (List.sublist_cons_self _ _)
    · rw [if_neg hk]
      exact (ih k).cons₂ (a, b)

theorem keys_aset_fresh {α : Type} : ∀ (l : List (Nat × α)) (k : Nat) (v : α),
    alookup l k = none → (aset l k v).map (·.1) = l.map (·.1) ++ [k] := by
  intro l
  induction l with
  | nil => intro k v _; rfl
  | cons hd t ih =>
    intro k v h
    obtain ⟨a, b⟩ := hd
    rw [show alookup ((a, b) :: t) k = if a = k then some b else alookup t k from rfl] at h
    by_cases hk : a = k
    · rw [if_pos hk] at h
      exact absurd h (by simp)
    · rw [if_neg hk] at h
      show ((if a = k then (k, v) :: t else (a, b) :: aset t k v).map (·.1)) = _
      rw [if_neg hk]
      simp only [List.map_cons, List.cons_append]
      rw [ih k v h]

theorem keys_aset_present {α : Type} : ∀ (l : List (Nat × α)) (k : Nat) (v w : α),
    alookup l k = some w → (aset l k v).map (·.1) = l.map (·.1) := by
  intro l
  induction l with
  | nil => intro k v w h; exact absurd h (by simp [alookup])
  | cons hd t ih =>
    intro k v w h
    obtain ⟨a, b⟩ := hd
    rw [show alookup ((a, b) :: t) k = if a = k then some b else alookup t k from rfl] at h
    show ((if a = k then (k, v) :: t else (a, b) :: aset t k v).map (·.1)) = _
    by_cases hk : a = k
    · rw [if_pos hk]
      simp [hk]
    · rw [if_neg hk] at h ⊢
      simp only [List.map_cons]
      rw [ih k v w h]

theorem alookup_none_not_mem {α : Type} :
    ∀ (l : List (Nat × α)) (k : Nat), alookup l k = none → ∀ v, (k, v) ∉ l := by
  intro l
  induction l with
  | nil => intro k _ v; exact List.not_mem_nil _
  | cons hd t ih =>
    intro k h v hmem
    obtain ⟨a, b⟩ := hd
    rw [show alookup ((a, b) :: t) k = if a = k then some b else alookup t k from rfl] at h
    by_cases hk : a = k
    · rw [if_pos hk] at h
      exact absurd h (by simp)
    · rw [if_neg hk] at h
      rcases List.mem_cons.mp hmem with h' | h'
      · exact hk (by injection h' with h1 h2; exact h1.symm)
      · exact ih k h v h'

theorem keys_aset_nodup {α : Type} (l : List (Nat × α)) (k : Nat) (v : α)
    (hnd : (l.map (·.1)).Nodup) : ((aset l k v).map (·.1)).Nodup := by
  rcases h : alookup l k with _ | w
  · rw [keys_aset_fresh l k v h]
    rw [List.nodup_append]
    refine ⟨hnd, List.nodup_singleton k, ?_⟩
    intro a ha hk
    have : a = k := by simpa using hk
    subst this
    obtain ⟨⟨k1, v1⟩, hmem, he⟩ := List.mem_map.mp ha
    simp at he
    exact alookup_none_not_mem l a h v1 (he ▸ hmem)
  · rw [keys_aset_present l k v w h]
    exact hnd

theorem keys_aerase_nodup {α : Type} (l : List (Nat × α)) (k : Nat)
    (hnd : (l.map (·.1)).Nodup) : ((aerase l k).map (·.1)).Nodup :=
  ((aerase_sublist l k).map (·.1)).nodup hnd

theorem mem_iff_alookup {α : Type} :
    ∀ (l : List (Nat × α)), (l.map (·.1)).Nodup → ∀ (k : Nat) (v : α),
      ((k, v) ∈ l ↔ alookup l k = some v) := by
  intro l
  induction l with
  | nil => intro _ k v; simp [alookup]
  | cons hd t ih =>
    intro hnd k v
    obtain ⟨a, b⟩ := hd
    have hnd2 : (a :: t.map (·.1)).Nodup := by simpa using hnd
    obtain ⟨ha, hnd'⟩ := List.nodup_cons.mp hnd2
    rw [show alookup ((a, b) :: t) k = if a = k then some b else alookup t k from rfl]
    by_cases hk : a = k
    · subst hk
      rw [if_pos rfl]
      constructor
      · intro h
        rcases List.mem_cons.mp h with h | h
        · injection h with h1 h2
          rw [h2]
        · exact absurd (List.mem_map.mpr ⟨(a, v), h, rfl⟩) ha
      · intro h
        simp at h
        rw [h]
        exact List.mem_cons_self _ _
    · rw [if_neg hk]
      constructor
      · intro h
        rcases List.mem_cons.mp h with h | h
        · exact absurd (by injection h with h1 _; exact h1.symm) hk
        · exact (ih hnd' k v).mp h
      · intro h
        exact List.mem_cons_of_mem _ ((ih hnd' k v).mpr h)

theorem mem_aset_iff {α : Type} (l : List (Nat × α)) (k : Nat) (v : α)
    (hnd : (l.map (·.1)).Nodup) (k' : Nat) (v' : α) :
    ((k', v') ∈ aset l k v ↔ (k' = k ∧ v' = v) ∨ ((k', v') ∈ l ∧ k' ≠ k)) := by
  rw [mem_iff_alookup _ (keys_aset_nodup l k v hnd)]
  by_cases hk : k' = k
  · subst hk
    rw [alookup_aset_self]
    simp [mem_iff_alookup l hnd, eq_comm]
  · rw [alookup_aset_ne _ _ _ _ hk, ← mem_iff_alookup l hnd]
    simp [hk]

theorem alookup_aerase_self {α : Type} : ∀ (l : List (Nat × α)) (k : Nat),
    (l.map (·.1)).Nodup → alookup (aerase l k) k = none := by
  intro l
  induction l with
  | nil => intro k _; rfl
  | cons hd t ih =>
    intro k hnd
    obtain ⟨a, b⟩ := hd
    have hnd2 : (a :: t.map (·.1)).Nodup := by simpa using hnd
    obtain ⟨ha, hnd'⟩ := List.nodup_cons.mp hnd2
    show alookup (if a = k then t else (a, b) :: aerase t k) k = none
    by_cases hk : a = k
    · subst hk
      rw [if_pos rfl]
      rcases h : alookup t a with _ | w
      · rfl
      · exact absurd (List.mem_map.mpr ⟨(a, w), alookup_eq_some_mem t a w h, rfl⟩) ha
    · rw [if_neg hk]
      show (if a = k then some b else alookup (aerase t k) k) = none
      rw [if_neg hk, ih k hnd']

theorem mem_aerase_iff {α : Type} (l : List (Nat × α)) (k : Nat)
    (hnd : (l.map (·.1)).Nodup) (k' : Nat) (v' : α) :
    ((k', v') ∈ aerase l k ↔ (k', v') ∈ l ∧ k' ≠ k) := by
  rw [mem_iff_alookup _ (keys_aerase_nodup l k hnd)]
  by_cases hk : k' = k
  · subst hk
    rw [alookup_aerase_self l k' hnd]
    simp
  · rw [alookup_aerase_ne _ _ _ hk, ← mem_iff_alookup l hnd]
    simp [hk]

theorem aset_lookup_self {α : Type} : ∀ (l : List (Nat × α)) (k : Nat) (v : α),
    alookup l k = some v → aset l k v = l := by
  intro l
  induction l with
  | nil => intro k v h; exact absurd h (by simp [alookup])
  | cons hd t ih =>
    intro k v h
    obtain ⟨a, b⟩ := hd
    rw [show alookup ((a, b) :: t) k = if a = k then some b else alookup t k from rfl] at h
    show (if a = k then (k, v) :: t else (a, b) :: aset t k v) = (a, b) :: t
    by_cases hk : a = k
    · rw [if_pos hk]
      rw [if_pos hk] at h
      simp at h
      rw [← hk, h]
    · rw [if_neg hk]
      rw [if_neg hk] at h
      rw [ih k v h]

/-- `predLookup` always answers with an entry of the map. -/
theorem predLookup_mem {α : Type} : ∀ (m : List (Nat × α)) (addr : Nat) (kv : Nat × α),
    predLookup m addr = some kv → kv ∈ m := by
  intro m
  induction m with
  | nil => intro addr kv h; exact absurd h (by simp [predLookup])
  | cons hd t ih =>
    intro addr kv h
    unfold predLookup at h
    by_cases hlt : addr < hd.1
    · rw [if_pos hlt] at h
      exact absurd h (by simp)
    · rw [if_neg hlt] at h
      rcases hrec : predLookup t addr with _ | r
      · rw [hrec] at h
        simp at h
        exact List.mem_cons.mpr (Or.inl h.symm)
      · rw [hrec] at h
        simp at h
        exact List.mem_cons_of_mem _ (h ▸ ih addr r hrec)

/-- `sset` preserves the strict key ordering. -/
theorem sset_sorted {α : Type} : ∀ (l : List (Nat × α)) (k : Nat) (v : α),
    KeysSorted l → KeysSorted (sset l k v) := by
  intro l
  induction l with
  | nil => intro k v _; exact List.pairwise_singleton _ _
  | cons hd t ih =>
    intro k v hs
    obtain ⟨hhd, ht⟩ := List.pairwise_cons.mp hs
    show KeysSorted (if k = hd.1 then (k, v) :: t else if k < hd.1 then (k, v) :: hd :: t
      else hd :: sset t k v)
    by_cases h1 : k = hd.1
    · rw [if_pos h1]
      exact List.pairwise_cons.mpr ⟨fun y hy => h1 ▸ hhd y hy, ht⟩
    · rw [if_neg h1]
      by_cases h2 : k < hd.1
      · rw [if_pos h2]
        refine List.pairwise_cons.mpr ⟨?_, hs⟩
        intro y hy
        rcases List.mem_cons.mp hy with h | h
        · rw [h]; exact h2
        · exact lt_trans h2 (hhd y h)
      · rw [if_neg h2]
        refine List.pairwise_cons.mpr ⟨?_, ih k v ht⟩
        intro y hy
        have hmem : y ∈ sset t k v := hy
        -- every entry of `sset t k v` is an old entry of `t` or the new `(k, v)`
        have : y = (k, v) ∨ y ∈ t := by
          clear hy hhd hs ih
          induction t with
          | nil => simpa [sset] using hmem
          | cons hd' t' ih' =>
            obtain ⟨c, d⟩ := hd'
            rw [show sset ((c, d) :: t') k v = if k = c then (k, v) :: t'
              else if k < c then (k, v) :: (c, d) :: t' else (c, d) :: sset t' k v from rfl]
              at hmem
            by_cases hc : k = c
            · rw [if_pos hc] at hmem
              rcases List.mem_cons.mp hmem with h | h
              · exact Or.inl h
              · exact Or.inr (List.mem_cons_of_mem _ h)
            · rw [if_neg hc] at hmem
              by_cases hc2 : k < c
              · rw [if_pos hc2] at hmem
                rcases List.mem_cons.mp hmem with h | h
                · exact Or.inl h
                · exact Or.inr h
              · rw [if_neg hc2] at hmem
                rcases List.mem_cons.mp hmem with h | h
                · exact Or.inr (List.mem_cons.mpr (Or.inl h))
                · rcases ih' (List.pairwise_cons.mp ht).2 h with h' | h'
                  · exact Or.inl h'
                  · exact Or.inr (List.mem_cons_of_mem _ h')
        rcases this with h | h
        · rw [h]; omega
        · exact hhd y h

/-- Membership in `sset` on a sorted map. -/
theorem mem_sset_iff {α : Type} : ∀ (l : List (Nat × α)) (k : Nat) (v : α),
    KeysSorted l → ∀ kv,
      (kv ∈ sset l k v ↔ kv = (k, v) ∨ (kv ∈ l ∧ kv.1 ≠ k)) := by
  intro l
  induction l with
  | nil =>
    intro k v _ kv
    show kv ∈ [(k, v)] ↔ _
    constructor
    · intro h; simp at h; exact Or.inl h
    · intro h
      rcases h with h | ⟨h, _⟩
      · simp [h]
      · exact absurd h (List.not_mem_nil kv)
  | cons hd t ih =>
    intro k v hs kv
    obtain ⟨hhd, ht⟩ := List.pairwise_cons.mp hs
    show kv ∈ (if k = hd.1 then (k, v) :: t else if k < hd.1 then (k, v) :: hd :: t
      else hd :: sset t k v) ↔ _
    by_cases h1 : k = hd.1
    · rw [if_pos h1]
      constructor
      · intro h
        rcases List.mem_cons.mp h with h | h
        · exact Or.inl h
        · refine Or.inr ⟨List.mem_cons_of_mem _ h, fun he => ?_⟩
          have := hhd kv h
          omega
      · intro h
        rcases h with h | ⟨h, h2⟩
        · exact List.mem_cons.mpr (Or.inl h)
        · rcases List.mem_cons.mp h with h | h
          · exact absurd (h ▸ h1.symm) h2
          · exact List.mem_cons_of_mem _ h
    · rw [if_neg h1]
      by_cases h2 : k < hd.1
      · rw [if_pos h2]
        constructor
        · intro h
          rcases List.mem_cons.mp h with h | h
          · exact Or.inl h
          · refine Or.inr ⟨h, fun he => ?_⟩
            rcases List.mem_cons.mp h with h' | h'
            · rw [h'] at he; omega
            · have := hhd kv h'; omega
        · intro h
          rcases h with h | ⟨h, _⟩
          · exact List.mem_cons.mpr (Or.inl h)
          · exact List.mem_cons_of_mem _ h
      · rw [if_neg h2]
        constructor
        · intro h
          rcases List.mem_cons.mp h with h | h
          · refine Or.inr ⟨List.mem_cons.mpr (Or.inl h), fun he => ?_⟩
            rw [h] at he; omega
          · rcases (ih k v ht kv).mp h with h' | h'
            · exact Or.inl h'
            · exact Or.inr ⟨List.mem_cons_of_mem _ h'.1, h'.2⟩
        · intro h
          rcases h with h | ⟨h, hne⟩
          · exact List.mem_cons_of_mem _ ((ih k v ht kv).mpr (Or.inl h))
          · rcases List.mem_cons.mp h with h' | h'
            · exact List.mem_cons.mpr (Or.inl h')
            · exact List.mem_cons_of_mem _ ((ih k v ht kv).mpr (Or.inr ⟨h', hne⟩))

/-! ### countP bookkeeping lemmas -/

theorem countP_erase (l : List Nat) (f : Nat → Bool) (a : Nat)
    (hnd : l.Nodup) (ha : a ∈ l) :
    (l.erase a).countP f + (if f a then 1 else 0) = l.countP f := by
  induction l with
  | nil => exact absurd ha (List.not_mem_nil a)
  | cons hd t ih =>
    obtain ⟨hhd, hnd'⟩ := List.nodup_cons.mp hnd
    by_cases he : hd = a
    · subst he
      rw [List.erase_cons_head, List.countP_cons]
    · rw [List.erase_cons_tail (by simp [Ne.symm, he])]
      have hat : a ∈ t := by
        rcases List.mem_cons.mp ha with h | h
        · exact absurd h.symm he
        · exact h
      rw [List.countP_cons, List.countP_cons, ← ih hnd' hat]
      omega

theorem countP_update (l : List Nat) (f g : Nat → Bool) (a : Nat)
    (hnd : l.Nodup) (ha : a ∈ l) (hrest : ∀ b ∈ l, b ≠ a → f b = g b) :
    l.countP g + (if f a then 1 else 0) = l.countP f + (if g a then 1 else 0) := by
  induction l with
  | nil => exact absurd ha (List.not_mem_nil a)
  | cons hd t ih =>
    obtain ⟨hhd, hnd'⟩ := List.nodup_cons.mp hnd
    rw [List.countP_cons, List.countP_cons]
    by_cases he : hd = a
    · subst he
      have : t.countP f = t.countP g := by
        apply List.countP_congr
        intro b hb
        rw [hrest b (List.mem_cons_of_mem _ hb) (fun hba => hhd (hba ▸ hb))]
      omega
    · have hat : a ∈ t := by
        rcases List.mem_cons.mp ha with h | h
        · exact absurd h.symm he
        · exact h
      have hfg : f hd = g hd := hrest hd (List.mem_cons_self _ _) he
      have := ih hnd' hat (fun b hb hne => hrest b (List.mem_cons_of_mem _ hb) hne)
      rw [hfg]
      omega

theorem countP_congr_all (l : List Nat) (f g : Nat → Bool)
    (h : ∀ b ∈ l, f b = g b) : l.countP f = l.countP g :=
  List.countP_congr (fun b hb => by rw [h b hb])

theorem countP_pos_of_mem (l : List Nat) (f : Nat → Bool) (a : Nat)
    (ha : a ∈ l) (hf : f a = true) : 1 ≤ l.countP f := by
  induction l with
  | nil => exact absurd ha (List.not_mem_nil a)
  | cons hd t ih =>
    rw [List.countP_cons]
    rcases List.mem_cons.mp ha with h | h
    · rw [h] at hf
      simp only [hf, if_true]
      omega
    · have := ih h
      omega

/-! ### Tracker-level helper lemmas -/

theorem zeros32_le (x : Nat) : zeros32 x ≤ 32 := by
  unfold zeros32
  calc ((List.range 32).filter _).length ≤ (List.range 32).length :=
        List.length_filter_le _ _
    _ = 32 := List.length_range 32

theorem zerosCount_le (words : List Nat) : zerosCount words ≤ 32 * words.length := by
  induction words with
  | nil => simp [zerosCount]
  | cons x t ih =>
    rw [zerosCount_cons]
    have := zeros32_le x
    simp only [List.length_cons]
    omega

theorem word_mem (words : List Nat) (k : Nat) (h : k < words.length) :
    words.getD k 0 ∈ words := by
  rw [List.getD_eq_getElem _ _ h]
  exact List.getElem_mem h

theorem zerosCount_zero_allSet (words : List Nat) (h : zerosCount words = 0) :
    ∀ k, k < words.length → ∀ b, b < 32 → (words.getD k 0).testBit b = true := by
  intro k hk b hb
  have hmem : zeros32 (words.getD k 0) ∈ words.map zeros32 :=
    List.mem_map.mpr ⟨_, word_mem words k hk, rfl⟩
  have hz : zeros32 (words.getD k 0) = 0 := by
    have := List.sum_eq_zero_iff.mp h _ hmem
    exact this
  unfold zeros32 at hz
  have hnil := List.length_eq_zero.mp hz
  have hall := List.filter_eq_nil_iff.mp hnil
  have := hall b (List.mem_range.mpr hb)
  simpa using this

theorem sum_all_eq_of_le : ∀ (l : List Nat) (c : Nat), (∀ x ∈ l, x ≤ c) →
    l.sum = c * l.length → ∀ x ∈ l, x = c := by
  intro l
  induction l with
  | nil => intro c _ _ x hx; exact absurd hx (List.not_mem_nil x)
  | cons a t ih =>
    intro c hle hsum x hx
    have htle : t.sum ≤ c * t.length := by
      have := List.sum_le_card_nsmul t c (fun y hy => hle y (List.mem_cons_of_mem a hy))
      calc t.sum ≤ t.length • c := this
        _ = c * t.length := by rw [smul_eq_mul, Nat.mul_comm]
    have hsum' : a + t.sum = c * t.length + c := by
      rw [List.sum_cons] at hsum
      rw [hsum, List.length_cons, Nat.mul_succ]
    have hac : a = c := by
      have := hle a (List.mem_cons_self a t)
      omega
    rcases List.mem_cons.mp hx with h | h
    · rw [h, hac]
    · exact ih c (fun y hy => hle y (List.mem_cons_of_mem a hy))
        (by omega) x h

theorem zerosCount_full_allClear (words : List Nat) (hlen : words.length = 32)
    (h : zerosCount words = 1024) :
    ∀ k, k < 32 → ∀ b, b < 32 → (words.getD k 0).testBit b = false := by
  intro k hk b hb
  have hmem : zeros32 (words.getD k 0) ∈ words.map zeros32 :=
    List.mem_map.mpr ⟨_, word_mem words k (by omega), rfl⟩
  have hall : ∀ x ∈ words.map zeros32, x = 32 := by
    apply sum_all_eq_of_le
    · intro x hx
      obtain ⟨w, _, rfl⟩ := List.mem_map.mp hx
      exact zeros32_le w
    · rw [show (words.map zeros32).sum = zerosCount words from rfl, h]
      simp [hlen]
  have hz : zeros32 (words.getD k 0) = 32 := hall _ hmem
  unfold zeros32 at hz
  have hsub : ((List.range 32).filter
      (fun j => !((words.getD k 0).testBit j))).Sublist (List.range 32) :=
    List.filter_sublist _
  have heq := hsub.eq_of_length (by rw [hz, List.length_range])
  have hbmem : b ∈ (List.range 32).filter (fun j => !((words.getD k 0).testBit j)) := by
    rw [heq]
    exact List.mem_range.mpr hb
  rw [List.mem_filter] at hbmem
  simpa using hbmem.2

/-- Clearing one set low bit adds exactly one zero. -/
theorem length_filter_add_one :
    ∀ (l : List Nat) (q : Nat → Bool) (b : Nat), l.Nodup → b ∈ l → q b = false →
      (l.filter (fun j => q j || decide (j = b))).length = (l.filter q).length + 1 := by
  intro l
  induction l with
  | nil => intro q b _ hb; exact absurd hb (List.not_mem_nil b)
  | cons a t ih =>
    intro q b hnd hb hq
    obtain ⟨hat, hnd'⟩ := List.nodup_cons.mp hnd
    rw [List.filter_cons, List.filter_cons]
    by_cases hab : a = b
    · subst hab
      have h1 : t.filter (fun j => q j || decide (j = a)) = t.filter q := by
        apply List.filter_congr
        intro j hj
        have : j ≠ a := fun he => hat (he ▸ hj)
        simp [this]
      simp only [hq, decide_True, Bool.false_or, Bool.or_true, if_true, Bool.false_eq_true,
        if_false, h1, List.length_cons]
    · have hbt : b ∈ t := by
        rcases List.mem_cons.mp hb with h | h
        · exact absurd h.symm hab
        · exact h
      have := ih q b hnd' hbt hq
      by_cases hqa : q a = true
      · simp only [hqa, Bool.true_or, if_true, List.length_cons]
        omega
      · have hqa' : q a = false := by simp at hqa; exact hqa
        simp only [hqa', hab, decide_False, Bool.or_false, Bool.false_eq_true, if_false]
        omega

theorem zerosCount_set : ∀ (l : List Nat) (k v : Nat), k < l.length →
    zerosCount (l.set k v) + zeros32 (l.getD k 0) = zerosCount l + zeros32 v := by
  intro l
  induction l with
  | nil => intro k v hk; simp at hk
  | cons x t ih =>
    intro k v hk
    cases k with
    | zero =>
      simp only [List.set_cons_zero, List.getD_cons_zero, zerosCount_cons]
      omega
    | succ k =>
      simp only [List.set_cons_succ, List.getD_cons_succ, zerosCount_cons]
      have := ih k v (by simpa using hk)
      omega

/-- `SpanTracker::setFree` under the tracker invariants: a no-op on a clear
bit; on a set bit, `freeCount` goes up by one and all invariants persist. -/
theorem setFree_spec (t : SpanTracker) (i : Nat)
    (hlen : t.bitmap.length = 32) (hw : ∀ x ∈ t.bitmap, x < 2 ^ 32)
    (hfc : t.freeCount = zerosCount t.bitmap) (hi : i < 1024) :
    (bitGet t.bitmap i = false → t.setFree i = t) ∧
    (bitGet t.bitmap i = true →
      (t.setFree i).freeCount = t.freeCount + 1 ∧
      (t.setFree i).bitmap.length = 32 ∧
      (∀ x ∈ (t.setFree i).bitmap, x < 2 ^ 32) ∧
      (t.setFree i).freeCount = zerosCount (t.setFree i).bitmap ∧
      (t.setFree i).spanAddr = t.spanAddr ∧ (t.setFree i).numPages = t.numPages) := by
  have hwlt : i / 32 < t.bitmap.length := by omega
  have hblt : i % 32 < 32 := Nat.mod_lt _ (by omega)
  set word := t.bitmap.getD (i / 32) 0 with hword
  have hwordlt : word < 2 ^ 32 := hw word (word_mem _ _ hwlt)
  constructor
  · intro hclear
    simp only [SpanTracker.setFree]
    rw [show (t.bitmap.getD (i / 32) 0).testBit (i % 32) = bitGet t.bitmap i from rfl, hclear]
    simp
  · intro hset
    have hbit : word.testBit (i % 32) = true := hset
    have hunf : t.setFree i =
        { t with bitmap := t.bitmap.set (i / 32) (word &&& comp32 (2 ^ (i % 32))),
                 freeCount := t.freeCount + 1 } := by
      simp only [SpanTracker.setFree]
      rw [show (t.bitmap.getD (i / 32) 0).testBit (i % 32) = bitGet t.bitmap i from rfl, hset]
      simp [hword]
    set nw := word &&& comp32 (2 ^ (i % 32)) with hnw
    have hnwbit : ∀ j, nw.testBit j =
        if j = i % 32 then false else (word.testBit j && decide (j < 32)) := by
      intro j
      rw [hnw, Nat.testBit_land]
      unfold comp32
      rw [Nat.testBit_xor, Nat.testBit_two_pow, Nat.testBit_two_pow_sub_one]
      by_cases hj : j = i % 32
      · subst hj
        simp [hblt, hbit]
      · rw [if_neg hj]
        by_cases hj32 : j < 32
        · simp [hj32, Ne.symm hj]
        · simp [hj32, Ne.symm hj]
    have hnwlt : nw < 2 ^ 32 := by
      apply lt_two_pow_32_of_testBit
      intro j hj
      rw [hnwbit j]
      by_cases hje : j = i % 32
      · simp [hje]
      · simp [hje]
        intro _
        omega
    have hz : zeros32 nw = zeros32 word + 1 := by
      unfold zeros32
      have hcongr : (List.range 32).filter (fun j => !(nw.testBit j))
          = (List.range 32).filter (fun j => (!(word.testBit j)) || decide (j = i % 32)) := by
        apply List.filter_congr
        intro j hj
        have hj32 : j < 32 := List.mem_range.mp hj
        rw [hnwbit j]
        by_cases hje : j = i % 32
        · simp [hje]
        · simp [hje, hj32]
      rw [hcongr]
      exact length_filter_add_one (List.range 32) (fun j => !(word.testBit j)) (i % 32)
        (List.nodup_range 32) (List.mem_range.mpr hblt) (by simp [hbit])
    have hzc := zerosCount_set t.bitmap (i / 32) nw hwlt
    rw [hunf]
    refine ⟨rfl, by simpa using hlen, ?_, ?_, rfl, rfl⟩
    · intro x hx
      rcases List.mem_or_eq_of_mem_set hx with h | h
      · exact hw x h
      · exact h ▸ hnwlt
    · show t.freeCount + 1 = zerosCount (t.bitmap.set (i / 32) nw)
      rw [hfc]
      rw [← hword] at hzc
      omega

/-- `allocateBatch` under the tracker invariants: all invariants persist, the
batch has length `min maxBatch freeCount`, and `freeCount` drops by exactly
that much. -/
theorem allocateBatch_invariants (t : SpanTracker) (maxBatch blockSize : Nat)
    (hlen : t.bitmap.length = 32) (hw : ∀ x ∈ t.bitmap, x < 2 ^ 32)
    (hfc : t.freeCount = zerosCount t.bitmap) :
    (t.allocateBatch maxBatch blockSize).2.bitmap.length = 32 ∧
    (∀ x ∈ (t.allocateBatch maxBatch blockSize).2.bitmap, x < 2 ^ 32) ∧
    (t.allocateBatch maxBatch blockSize).2.freeCount
      = zerosCount (t.allocateBatch maxBatch blockSize).2.bitmap ∧
    (t.allocateBatch maxBatch blockSize).1.length = min maxBatch t.freeCount ∧
    (t.allocateBatch maxBatch blockSize).2.freeCount
      = t.freeCount - (t.allocateBatch maxBatch blockSize).1.length ∧
    (t.allocateBatch maxBatch blockSize).2.spanAddr = t.spanAddr ∧
    (t.allocateBatch maxBatch blockSize).2.numPages = t.numPages := by
  obtain ⟨b1, b2, b3, b4, b5, b6, b7, b8, b9⟩ :=
    batchLoop_spec t.bitmap 0 (min maxBatch t.freeCount) t.freeCount hw
  set B := batchLoop t.bitmap 0 (min maxBatch t.freeCount) t.freeCount with hB
  have hr1 : (t.allocateBatch maxBatch blockSize).1
      = B.1.map (fun i => t.spanAddr + i * blockSize) := rfl
  have hr2 : (t.allocateBatch maxBatch blockSize).2.bitmap = B.2.1 := rfl
  have hr3 : (t.allocateBatch maxBatch blockSize).2.freeCount = B.2.2 := rfl
  have hlenB : B.1.length = min maxBatch t.freeCount := by
    rw [b1, hfc]
    omega
  refine ⟨by rw [hr2, b4, hlen], fun x hx => b5 x (hr2 ▸ hx), ?_, ?_, ?_, rfl, rfl⟩
  · rw [hr3, hr2, b8, hfc]
    omega
  · rw [hr1, List.length_map, hlenB]
  · rw [hr3, hr1, List.length_map, b8, hlenB]

theorem maxEmptySpans_pos (idx : Nat) : 1 ≤ maxEmptySpans idx := by
  unfold maxEmptySpans
  dsimp only
  split
  · omega
  · omega

theorem zerosCount_replicate : zerosCount (List.replicate 32 0) = 1024 := by decide

theorem zeros32_pos_of_clear {x b : Nat} (hb : b < 32) (hx : x.testBit b = false) :
    1 ≤ zeros32 x := by
  unfold zeros32
  have hmem : b ∈ (List.range 32).filter (fun j => !(x.testBit j)) := by
    rw [List.mem_filter]
    exact ⟨List.mem_range.mpr hb, by simp [hx]⟩
  exact List.length_pos_of_mem hmem

theorem zerosCount_pos_of_clear (words : List Nat) (i : Nat)
    (hlen : words.length = 32) (hi : i < 1024) (hbit : bitGet words i = false) :
    1 ≤ zerosCount words := by
  have hk : i / 32 < words.length := by omega
  have h1 : 1 ≤ zeros32 (words.getD (i / 32) 0) :=
    zeros32_pos_of_clear (Nat.mod_lt _ (by omega))
      (show (words.getD (i / 32) 0).testBit (i % 32) = false from hbit)
  have hmem : zeros32 (words.getD (i / 32) 0) ∈ words.map zeros32 :=
    List.mem_map.mpr ⟨_, word_mem words _ hk, rfl⟩
  have h2 : zeros32 (words.getD (i / 32) 0) ≤ (words.map zeros32).sum :=
    List.single_le_sum (fun x _ => Nat.zero_le x) _ hmem
  show 1 ≤ (words.map zeros32).sum
  omega

theorem allAllocated_iff (t : SpanTracker) :
    t.allAllocated = true ↔ t.freeCount = 0 := by
  simp [SpanTracker.allAllocated]

theorem allFree_iff (t : SpanTracker) :
    t.allFree = true ↔ t.freeCount = 1024 := by
  simp [SpanTracker.allFree, SpanTracker.BLOCK_COUNT]

theorem freeCount_le_1024 (t : SpanTracker) (hbl : t.bitmap.length = 32)
    (hbf : t.freeCount = zerosCount t.bitmap) : t.freeCount ≤ 1024 := by
  rw [hbf]
  have := zerosCount_le t.bitmap
  omega

/-- `CCInv` only inspects the `trackers`, `freeList` and `emptyCount` fields. -/
theorem ccinv_of_fields (idx : Nat) (v w : CCState) (hinv : CCInv idx w)
    (ht : v.trackers = w.trackers) (hf : v.freeList = w.freeList)
    (he : v.emptyCount = w.emptyCount) : CCInv idx v := by
  refine ⟨?_, ?_, ?_, ?_, ?_, ?_⟩
  · rw [ht]; exact hinv.tkeys
  · rw [ht]; exact hinv.tgood
  · rw [hf]; exact hinv.flnd
  · intro a tb hlkb
    rw [ht] at hlkb
    rw [hf]
    exact hinv.fliff a tb hlkb
  · show v.emptyCount = v.freeList.countP _
    simp only [ht, hf, he]
    exact hinv.ecnt
  · rw [he]; exact hinv.ecbound

theorem emptyKeyP_of_lookup (m : List (Nat × SpanTracker)) (b : Nat)
    (t : SpanTracker) (hlk : alookup m b = some t) :
    emptyKeyP m b = t.allFree := by
  unfold emptyKeyP
  rw [hlk]

theorem emptyKeyP_of_none (m : List (Nat × SpanTracker)) (b : Nat)
    (hlk : alookup m b = none) : emptyKeyP m b = false := by
  unfold emptyKeyP
  rw [hlk]

theorem emptyKeyP_aset_ne (m : List (Nat × SpanTracker)) (k b : Nat)
    (v : SpanTracker) (hb : b ≠ k) : emptyKeyP (aset m k v) b = emptyKeyP m b := by
  unfold emptyKeyP
  rw [alookup_aset_ne _ _ _ _ hb]

theorem emptyKeyP_aset_self (m : List (Nat × SpanTracker)) (k : Nat)
    (v : SpanTracker) : emptyKeyP (aset m k v) k = v.allFree := by
  unfold emptyKeyP
  rw [alookup_aset_self]

/-- The fresh per-class state satisfies the invariant. -/
theorem ccinv_init (idx : Nat) : CCInv idx ccInit := by
  refine ⟨?_, ?_, ?_, ?_, ?_, ?_⟩
  · exact List.nodup_nil
  · intro kt hkt; exact absurd hkt (List.not_mem_nil kt)
  · exact List.nodup_nil
  · intro a tb hlkb
    exact absurd hlkb (by simp [ccInit, alookup])
  · rfl
  · exact Nat.zero_le _


/-- Invariant after `fetchFromPageCache` succeeds on an empty class free list
and the fresh tracker is pushed with `emptyCount` bumped (the refill arm of
`fetchRange`, CentralCache.cpp lines 104-115). -/
theorem refill_inv (idx : Nat) (s : CCState) (hinv : CCInv idx s)
    (hfl : s.freeList = []) (a : Nat) (v : CCState)
    (hvt : v.trackers = aset s.trackers a
      { spanAddr := a, numPages := pagesFor idx,
        freeCount := SpanTracker.BLOCK_COUNT, bitmap := List.replicate 32 0 })
    (hvf : v.freeList = [a])
    (hve : v.emptyCount = s.emptyCount + 1) :
    CCInv idx v := by
  have hec0 : s.emptyCount = 0 := by
    have h := hinv.ecnt
    unfold countEmptyKeys at h
    rw [hfl] at h
    simpa using h
  refine ⟨?_, ?_, ?_, ?_, ?_, ?_⟩
  · rw [hvt]; exact keys_aset_nodup _ _ _ hinv.tkeys
  · intro kt hkt
    obtain ⟨k', v'⟩ := kt
    rw [hvt] at hkt
    rcases (mem_aset_iff _ _ _ hinv.tkeys k' v').mp hkt with ⟨_, hv⟩ | ⟨hold, _⟩
    · subst hv
      refine ⟨by simp, ?_, ?_⟩
      · intro x hx
        rw [List.eq_of_mem_replicate hx]
        show (0 : Nat) < 2 ^ 32
        omega
      · show SpanTracker.BLOCK_COUNT = zerosCount (List.replicate 32 0)
        rw [zerosCount_replicate]
        rfl
    · exact hinv.tgood (k', v') hold
  · rw [hvf]; exact List.nodup_singleton a
  · intro b tb hlkb
    rw [hvt] at hlkb
    rw [hvf]
    by_cases hb : b = a
    · subst hb
      rw [alookup_aset_self] at hlkb
      injection hlkb with htb
      subst htb
      simp [SpanTracker.BLOCK_COUNT]
    · rw [alookup_aset_ne _ _ _ _ hb] at hlkb
      have hold := hinv.fliff b tb hlkb
      rw [hfl] at hold
      have hz : tb.freeCount = 0 := by
        by_contra hne
        exact absurd (hold.mpr hne) (List.not_mem_nil b)
      simp [hb, hz]
  · show v.emptyCount = v.freeList.countP (emptyKeyP v.trackers)
    rw [hvt, hvf, hve, hec0]
    rw [show ([a] : List Nat) = a :: [] from rfl, List.countP_cons, List.countP_nil]
    rw [emptyKeyP_aset_self]
    simp [SpanTracker.allFree]
  · rw [hve, hec0]
    have := maxEmptySpans_pos idx
    omega

/-- Invariant after the allocate-from-head-tracker tail of `fetchRange`
(CentralCache.cpp lines 117-129): the head tracker hands out a batch, the
`wasEmpty` bookkeeping decrements `emptyCount`, and a fully-allocated tracker
leaves the free list. -/
theorem fetch_tail_inv (idx maxBatch : Nat) (u : CCState) (hinv : CCInv idx u)
    (hmb : maxBatch ≠ 0) (a0 : Nat) (t : SpanTracker)
    (hlk : alookup u.trackers a0 = some t) (hhead : a0 ∈ u.freeList)
    (v : CCState)
    (hvt : v.trackers = aset u.trackers a0
        (t.allocateBatch maxBatch (SizeClass.getSize idx)).2)
    (hvf : v.freeList =
        if (t.allocateBatch maxBatch (SizeClass.getSize idx)).2.allAllocated = true
        then u.freeList.erase a0 else u.freeList)
    (hve : v.emptyCount =
        if t.allFree = true ∧
            (t.allocateBatch maxBatch (SizeClass.getSize idx)).1.length ≠ 0
        then u.emptyCount - 1 else u.emptyCount) :
    CCInv idx v := by
  obtain ⟨hbl, hbw, hbf⟩ := hinv.tgood (a0, t) (alookup_eq_some_mem _ _ _ hlk)
  obtain ⟨hL, hW, hZ, hlen, hfc, hsa, hnp⟩ :=
    allocateBatch_invariants t maxBatch (SizeClass.getSize idx) hbl hbw hbf
  have hfc0 : t.freeCount ≠ 0 := (hinv.fliff a0 t hlk).mp hhead
  have hfcle : t.freeCount ≤ 1024 := freeCount_le_1024 t hbl hbf
  have hlen1 : (t.allocateBatch maxBatch (SizeClass.getSize idx)).1.length ≠ 0 := by
    rw [hlen]; omega
  have hfclt : (t.allocateBatch maxBatch (SizeClass.getSize idx)).2.freeCount < 1024 := by
    rw [hfc, hlen]; omega
  have hafnew : (t.allocateBatch maxBatch (SizeClass.getSize idx)).2.allFree = false := by
    simp only [SpanTracker.allFree, SpanTracker.BLOCK_COUNT]
    simp only [beq_eq_false_iff_ne, ne_eq]
    omega
  refine ⟨?_, ?_, ?_, ?_, ?_, ?_⟩
  · rw [hvt]; exact keys_aset_nodup _ _ _ hinv.tkeys
  · intro kt hkt
    obtain ⟨k', v'⟩ := kt
    rw [hvt] at hkt
    rcases (mem_aset_iff _ _ _ hinv.tkeys k' v').mp hkt with ⟨_, hv⟩ | ⟨hold, _⟩
    · subst hv
      exact ⟨hL, hW, hZ⟩
    · exact hinv.tgood (k', v') hold
  · rw [hvf]
    split
    · exact hinv.flnd.erase a0
    · exact hinv.flnd
  · intro b tb hlkb
    rw [hvt] at hlkb
    rw [hvf]
    by_cases hb : b = a0
    · subst hb
      rw [alookup_aset_self] at hlkb
      injection hlkb with htb
      subst htb
      by_cases h2 : (t.allocateBatch maxBatch (SizeClass.getSize idx)).2.allAllocated = true
      · rw [if_pos h2]
        have h20 := (allAllocated_iff _).mp h2
        constructor
        · intro hmem
          exact ((hinv.flnd.mem_erase_iff.mp hmem).1 rfl).elim
        · intro hne; exact absurd h20 hne
      · rw [if_neg h2]
        have h20 : (t.allocateBatch maxBatch (SizeClass.getSize idx)).2.freeCount ≠ 0 :=
          fun h0 => h2 ((allAllocated_iff _).mpr h0)
        exact ⟨fun _ => h20, fun _ => hhead⟩
    · rw [alookup_aset_ne _ _ _ _ hb] at hlkb
      have hold := hinv.fliff b tb hlkb
      split
      · rw [hinv.flnd.mem_erase_iff]
        constructor
        · intro h3; exact hold.mp h3.2
        · intro h3; exact ⟨hb, hold.mpr h3⟩
      · exact hold
  · show v.emptyCount = v.freeList.countP (emptyKeyP v.trackers)
    rw [hvt, hvf, hve]
    have hagree : ∀ b ∈ u.freeList, b ≠ a0 →
        emptyKeyP u.trackers b =
        emptyKeyP (aset u.trackers a0
          (t.allocateBatch maxBatch (SizeClass.getSize idx)).2) b := by
      intro b _ hb
      rw [emptyKeyP_aset_ne _ _ _ _ hb]
    have hPnew : emptyKeyP (aset u.trackers a0
        (t.allocateBatch maxBatch (SizeClass.getSize idx)).2) a0 = false := by
      rw [emptyKeyP_aset_self, hafnew]
    have hPold : emptyKeyP u.trackers a0 = t.allFree :=
      emptyKeyP_of_lookup _ _ _ hlk
    have hupd := countP_update u.freeList (emptyKeyP u.trackers)
      (emptyKeyP (aset u.trackers a0
        (t.allocateBatch maxBatch (SizeClass.getSize idx)).2)) a0
      hinv.flnd hhead hagree
    rw [hPnew, hPold] at hupd
    have hecnt := hinv.ecnt
    unfold countEmptyKeys at hecnt
    have herase : ∀ f : Nat → Bool, f a0 = false →
        (u.freeList.erase a0).countP f = u.freeList.countP f := by
      intro f hf
      have := countP_erase u.freeList f a0 hinv.flnd hhead
      rw [hf] at this
      simpa using this
    by_cases hc1 : t.allFree = true
    · rw [if_pos ⟨hc1, hlen1⟩]
      have hpos : 1 ≤ u.freeList.countP (emptyKeyP u.trackers) :=
        countP_pos_of_mem u.freeList _ a0 hhead (by rw [hPold, hc1])
      rw [hc1] at hupd
      simp only [if_true, if_false, Bool.false_eq_true] at hupd
      split
      · rw [herase _ hPnew]
        omega
      · omega
    · have hc1' : ¬(t.allFree = true ∧
          (t.allocateBatch maxBatch (SizeClass.getSize idx)).1.length ≠ 0) := by
        intro h3; exact hc1 h3.1
      rw [if_neg hc1']
      have hcf : t.allFree = false := by
        cases h4 : t.allFree
        · rfl
        · exact absurd h4 hc1
      rw [hcf] at hupd
      simp only [Bool.false_eq_true, if_false] at hupd
      split
      · rw [herase _ hPnew]
        omega
      · omega
  · split at hve <;> [skip; skip] <;> rw [hve] <;>
      have := hinv.ecbound <;> omega


/-- Invariant after one `returnRange` block whose processing neither pushes
`emptyCount` (the tracker did not just become all-free): the bit is cleared,
a previously full tracker rejoins the free list (CentralCache.cpp lines
186-199). -/
theorem retgo_step_keep (idx : Nat) (s : CCState) (hinv : CCInv idx s) (key : Nat)
    (t : SpanTracker) (hlk : alookup s.trackers key = some t) (i : Nat) (hi : i < 1024)
    (hcond : ¬(t.allFree = false ∧ (t.setFree i).allFree = true))
    (v : CCState)
    (hvt : v.trackers = aset s.trackers key (t.setFree i))
    (hvf : v.freeList = if t.allAllocated = true then key :: s.freeList else s.freeList)
    (hve : v.emptyCount = s.emptyCount) :
    CCInv idx v := by
  obtain ⟨hbl, hbw, hbf⟩ := hinv.tgood (key, t) (alookup_eq_some_mem _ _ _ hlk)
  have hsf := setFree_spec t i hbl hbw hbf hi
  cases hbit : bitGet t.bitmap i with
  | false =>
    have hid : t.setFree i = t := hsf.1 hbit
    have hfc1 : 1 ≤ t.freeCount := by
      rw [hbf]
      exact zerosCount_pos_of_clear t.bitmap i hbl hi hbit
    have hwf : t.allAllocated = false := by
      simp only [SpanTracker.allAllocated]
      simp only [beq_eq_false_iff_ne, ne_eq]
      omega
    rw [hid, aset_lookup_self _ _ _ hlk] at hvt
    rw [hwf] at hvf
    simp only [Bool.false_eq_true, if_false] at hvf
    exact ccinv_of_fields idx v s hinv hvt hvf hve
  | true =>
    obtain ⟨hfc', hbl', hbw', hbf', hsa', hnp'⟩ := hsf.2 hbit
    have htA : t.allFree = false := by
      cases h4 : t.allFree
      · rfl
      · exfalso
        have h10 : t.freeCount = 1024 := (allFree_iff t).mp h4
        have hz : zerosCount t.bitmap = 1024 := by rw [← hbf]; exact h10
        have hclear := zerosCount_full_allClear t.bitmap hbl hz (i / 32) (by omega)
          (i % 32) (Nat.mod_lt _ (by omega))
        have hb2 : (t.bitmap.getD (i / 32) 0).testBit (i % 32) = true := hbit
        rw [hclear] at hb2
        simp at hb2
    have htA' : (t.setFree i).allFree = false := by
      cases h4 : (t.setFree i).allFree
      · rfl
      · exact absurd ⟨htA, h4⟩ hcond
    refine ⟨?_, ?_, ?_, ?_, ?_, ?_⟩
    · rw [hvt]; exact keys_aset_nodup _ _ _ hinv.tkeys
    · intro kt hkt
      obtain ⟨k', v'⟩ := kt
      rw [hvt] at hkt
      rcases (mem_aset_iff _ _ _ hinv.tkeys k' v').mp hkt with ⟨_, hv⟩ | ⟨hold, _⟩
      · subst hv
        exact ⟨hbl', hbw', hbf'⟩
      · exact hinv.tgood (k', v') hold
    · rw [hvf]
      split
      · rename_i hwf
        have h0 := (allAllocated_iff t).mp hwf
        have hnm : key ∉ s.freeList := fun hm => ((hinv.fliff key t hlk).mp hm) h0
        exact List.nodup_cons.mpr ⟨hnm, hinv.flnd⟩
      · exact hinv.flnd
    · intro b tb hlkb
      rw [hvt] at hlkb
      rw [hvf]
      by_cases hb : b = key
      · subst hb
        rw [alookup_aset_self] at hlkb
        injection hlkb with htb
        subst htb
        have hne0 : (t.setFree i).freeCount ≠ 0 := by rw [hfc']; omega
        split
        · exact ⟨fun _ => hne0, fun _ => List.mem_cons_self _ _⟩
        · rename_i hwf
          have h0 : t.freeCount ≠ 0 := fun h0 => hwf ((allAllocated_iff t).mpr h0)
          exact ⟨fun _ => hne0, fun _ => (hinv.fliff b t hlk).mpr h0⟩
      · rw [alookup_aset_ne _ _ _ _ hb] at hlkb
        have hold := hinv.fliff b tb hlkb
        split
        · constructor
          · intro h3
            rcases List.mem_cons.mp h3 with h4 | h4
            · exact absurd h4 hb
            · exact hold.mp h4
          · intro h3
            exact List.mem_cons_of_mem _ (hold.mpr h3)
        · exact hold
    · show v.emptyCount = v.freeList.countP (emptyKeyP v.trackers)
      rw [hvt, hvf, hve]
      have hPnew : emptyKeyP (aset s.trackers key (t.setFree i)) key = false := by
        rw [emptyKeyP_aset_self, htA']
      have hPold : emptyKeyP s.trackers key = false := by
        rw [emptyKeyP_of_lookup _ _ _ hlk, htA]
      have hecnt := hinv.ecnt
      unfold countEmptyKeys at hecnt
      have hall : ∀ b ∈ s.freeList,
          emptyKeyP (aset s.trackers key (t.setFree i)) b = emptyKeyP s.trackers b := by
        intro b _
        by_cases hb : b = key
        · subst hb; rw [hPnew, hPold]
        · rw [emptyKeyP_aset_ne _ _ _ _ hb]
      have hcong := countP_congr_all s.freeList _ _ hall
      split
      · rw [List.countP_cons, hPnew, hcong]
        simp only [Bool.false_eq_true, if_false]
        omega
      · rw [hcong]; exact hecnt
    · rw [hve]; exact hinv.ecbound

/-- Invariant after a `returnRange` block that makes its tracker all-free and
`emptyCount + 1` stays within the cap: no eviction (CentralCache.cpp lines
201-209, guard false). -/
theorem retgo_step_grow (idx : Nat) (s : CCState) (hinv : CCInv idx s) (key : Nat)
    (t : SpanTracker) (hlk : alookup s.trackers key = some t) (i : Nat) (hi : i < 1024)
    (hwe : t.allFree = false) (haf : (t.setFree i).allFree = true)
    (hguard : s.emptyCount + 1 ≤ maxEmptySpans idx)
    (v : CCState)
    (hvt : v.trackers = aset s.trackers key (t.setFree i))
    (hvf : v.freeList = if t.allAllocated = true then key :: s.freeList else s.freeList)
    (hve : v.emptyCount = s.emptyCount + 1) :
    CCInv idx v := by
  obtain ⟨hbl, hbw, hbf⟩ := hinv.tgood (key, t) (alookup_eq_some_mem _ _ _ hlk)
  have hsf := setFree_spec t i hbl hbw hbf hi
  have hbit : bitGet t.bitmap i = true := by
    cases h4 : bitGet t.bitmap i
    · exfalso
      have hid := hsf.1 h4
      rw [hid] at haf
      rw [haf] at hwe
      exact absurd hwe (by simp)
    · rfl
  obtain ⟨hfc', hbl', hbw', hbf', hsa', hnp'⟩ := hsf.2 hbit
  have hfc1023 : t.freeCount = 1023 := by
    have h10 := (allFree_iff _).mp haf
    rw [hfc'] at h10
    omega
  have hwf : t.allAllocated = false := by
    simp only [SpanTracker.allAllocated]
    simp only [beq_eq_false_iff_ne, ne_eq]
    omega
  rw [hwf] at hvf
  simp only [Bool.false_eq_true, if_false] at hvf
  have hkeymem : key ∈ s.freeList := (hinv.fliff key t hlk).mpr (by omega)
  refine ⟨?_, ?_, ?_, ?_, ?_, ?_⟩
  · rw [hvt]; exact keys_aset_nodup _ _ _ hinv.tkeys
  · intro kt hkt
    obtain ⟨k', v'⟩ := kt
    rw [hvt] at hkt
    rcases (mem_aset_iff _ _ _ hinv.tkeys k' v').mp hkt with ⟨_, hv⟩ | ⟨hold, _⟩
    · subst hv; exact ⟨hbl', hbw', hbf'⟩
    · exact hinv.tgood (k', v') hold
  · rw [hvf]; exact hinv.flnd
  · intro b tb hlkb
    rw [hvt] at hlkb
    rw [hvf]
    by_cases hb : b = key
    · subst hb
      rw [alookup_aset_self] at hlkb
      injection hlkb with htb
      subst htb
      have hne0 : (t.setFree i).freeCount ≠ 0 := by rw [hfc']; omega
      exact ⟨fun _ => hne0, fun _ => hkeymem⟩
    · rw [alookup_aset_ne _ _ _ _ hb] at hlkb
      exact hinv.fliff b tb hlkb
  · show v.emptyCount = v.freeList.countP (emptyKeyP v.trackers)
    rw [hvt, hvf, hve]
    have hagree : ∀ b ∈ s.freeList, b ≠ key →
        emptyKeyP s.trackers b = emptyKeyP (aset s.trackers key (t.setFree i)) b := by
      intro b _ hb
      rw [emptyKeyP_aset_ne _ _ _ _ hb]
    have hupd := countP_update s.freeList (emptyKeyP s.trackers)
      (emptyKeyP (aset s.trackers key (t.setFree i))) key hinv.flnd hkeymem hagree
    rw [emptyKeyP_aset_self, emptyKeyP_of_lookup _ _ _ hlk, haf, hwe] at hupd
    simp only [Bool.false_eq_true, eq_self_iff_true, if_true, if_false] at hupd
    have hecnt := hinv.ecnt
    unfold countEmptyKeys at hecnt
    omega
  · rw [hve]; exact hguard

/-- Invariant after a `returnRange` block that makes its tracker all-free and
pushes `emptyCount` past the cap: the tracker is immediately evicted through
`returnToPageCache` (CentralCache.cpp lines 201-207, guard true). -/
theorem retgo_step_evict (idx : Nat) (s : CCState) (hinv : CCInv idx s) (key : Nat)
    (t : SpanTracker) (hlk : alookup s.trackers key = some t) (i : Nat) (hi : i < 1024)
    (hwe : t.allFree = false) (haf : (t.setFree i).allFree = true)
    (s3 : CCState)
    (h3t : s3.trackers = aset s.trackers key (t.setFree i))
    (h3f : s3.freeList = if t.allAllocated = true then key :: s.freeList else s.freeList)
    (h3e : s3.emptyCount = s.emptyCount + 1) :
    CCInv idx (returnToPageCacheCC idx s3 key) := by
  obtain ⟨hbl, hbw, hbf⟩ := hinv.tgood (key, t) (alookup_eq_some_mem _ _ _ hlk)
  have hsf := setFree_spec t i hbl hbw hbf hi
  have hbit : bitGet t.bitmap i = true := by
    cases h4 : bitGet t.bitmap i
    · exfalso
      have hid := hsf.1 h4
      rw [hid] at haf
      rw [haf] at hwe
      exact absurd hwe (by simp)
    · rfl
  obtain ⟨hfc', hbl', hbw', hbf', hsa', hnp'⟩ := hsf.2 hbit
  have hfc1023 : t.freeCount = 1023 := by
    have h10 := (allFree_iff _).mp haf
    rw [hfc'] at h10
    omega
  have hwf : t.allAllocated = false := by
    simp only [SpanTracker.allAllocated]
    simp only [beq_eq_false_iff_ne, ne_eq]
    omega
  rw [hwf] at h3f
  simp only [Bool.false_eq_true, if_false] at h3f
  have hkeymem : key ∈ s.freeList := (hinv.fliff key t hlk).mpr (by omega)
  have hnd3 : (s3.trackers.map (·.1)).Nodup := by
    rw [h3t]; exact keys_aset_nodup _ _ _ hinv.tkeys
  have hlk3 : alookup s3.trackers key = some (t.setFree i) := by
    rw [h3t]; exact alookup_aset_self _ _ _
  simp only [returnToPageCacheCC, hlk3]
  refine ⟨?_, ?_, ?_, ?_, ?_, ?_⟩
  · show ((aerase s3.trackers key).map (·.1)).Nodup
    exact keys_aerase_nodup _ _ hnd3
  · show ∀ kt ∈ aerase s3.trackers key, kt.2.bitmap.length = 32 ∧
      (∀ x ∈ kt.2.bitmap, x < 2 ^ 32) ∧ kt.2.freeCount = zerosCount kt.2.bitmap
    intro kt hkt
    obtain ⟨k', v'⟩ := kt
    have hm2 : (k', v') ∈ aset s.trackers key (t.setFree i) := by
      rw [← h3t]
      exact (aerase_sublist _ _).subset hkt
    rcases (mem_aset_iff _ _ _ hinv.tkeys k' v').mp hm2 with ⟨_, hv⟩ | ⟨hold, _⟩
    · subst hv; exact ⟨hbl', hbw', hbf'⟩
    · exact hinv.tgood (k', v') hold
  · show (s3.freeList.erase key).Nodup
    rw [h3f]
    exact hinv.flnd.erase key
  · show ∀ b tb, alookup (aerase s3.trackers key) b = some tb →
      (b ∈ s3.freeList.erase key ↔ tb.freeCount ≠ 0)
    intro b tb hlkb
    by_cases hb : b = key
    · subst hb
      rw [alookup_aerase_self s3.trackers b hnd3] at hlkb
      exact absurd hlkb (by simp)
    · rw [alookup_aerase_ne _ _ _ hb, h3t, alookup_aset_ne _ _ _ _ hb] at hlkb
      have hold := hinv.fliff b tb hlkb
      rw [h3f, hinv.flnd.mem_erase_iff]
      constructor
      · intro h3; exact hold.mp h3.2
      · intro h3; exact ⟨hb, hold.mpr h3⟩
  · show s3.emptyCount - 1 =
      (s3.freeList.erase key).countP (emptyKeyP (aerase s3.trackers key))
    rw [h3e, h3f]
    have hPw : ∀ b ∈ s.freeList.erase key,
        emptyKeyP (aerase s3.trackers key) b = emptyKeyP s.trackers b := by
      intro b hbm
      have hbne : b ≠ key := (hinv.flnd.mem_erase_iff.mp hbm).1
      unfold emptyKeyP
      rw [alookup_aerase_ne _ _ _ hbne, h3t, alookup_aset_ne _ _ _ _ hbne]
    have hcong := countP_congr_all (s.freeList.erase key) _ _ hPw
    have hPold_key : emptyKeyP s.trackers key = false := by
      rw [emptyKeyP_of_lookup _ _ _ hlk, hwe]
    have hers := countP_erase s.freeList (emptyKeyP s.trackers) key hinv.flnd hkeymem
    rw [hPold_key] at hers
    simp only [Bool.false_eq_true, if_false] at hers
    have hecnt := hinv.ecnt
    unfold countEmptyKeys at hecnt
    omega
  · show s3.emptyCount - 1 ≤ maxEmptySpans idx
    rw [h3e]
    have := hinv.ecbound
    omega


/-- `retGo` preserves the class invariant: induction over the returned chain,
dispatching each block to the keep / grow / evict step lemma. -/
theorem retGo_inv (idx blkSize : Nat) :
    ∀ (chain : List Nat) (s : CCState), CCInv idx s → ∀ s' : CCState,
      retGo idx (maxEmptySpans idx) blkSize s chain = some s' → CCInv idx s' := by
  intro chain
  induction chain with
  | nil =>
    intro s hinv s' h
    simp only [retGo] at h
    injection h with h2
    subst h2
    exact hinv
  | cons p rest ih =>
    intro s hinv s' h
    simp only [retGo] at h
    rcases hg : ccGetSpanTracker idx s p with _ | key
    · simp only [hg] at h
      exact absurd h (by simp)
    · simp only [hg] at h
      rcases hlk : alookup s.trackers key with _ | t
      · simp only [hlk] at h
        exact absurd h (by simp)
      · simp only [hlk] at h
        by_cases hbi : SpanTracker.BLOCK_COUNT ≤ (p - t.spanAddr) / blkSize
        · rw [if_pos hbi] at h
          exact absurd h (by simp)
        · rw [if_neg hbi] at h
          have hi : (p - t.spanAddr) / blkSize < 1024 := by
            unfold SpanTracker.BLOCK_COUNT at hbi
            omega
          by_cases hwf : t.allAllocated = true
          · simp only [hwf, eq_self_iff_true, if_true] at h
            by_cases hc : t.allFree = false ∧
                (t.setFree ((p - t.spanAddr) / blkSize)).allFree = true
            · rw [if_pos hc] at h
              by_cases hgd : maxEmptySpans idx < s.emptyCount + 1
              · rw [if_pos hgd] at h
                exact ih _ (retgo_step_evict idx s hinv key t hlk _ hi hc.1 hc.2
                  (⟨aset s.trackers key (t.setFree ((p - t.spanAddr) / blkSize)),
                    key :: s.freeList, s.emptyCount + 1, s.pageMap, s.spanMap⟩ : CCState)
                  rfl (by simp [hwf]) rfl) s' h
              · rw [if_neg hgd] at h
                exact ih _ (retgo_step_grow idx s hinv key t hlk _ hi hc.1 hc.2
                  (by omega)
                  (⟨aset s.trackers key (t.setFree ((p - t.spanAddr) / blkSize)),
                    key :: s.freeList, s.emptyCount + 1, s.pageMap, s.spanMap⟩ : CCState)
                  rfl (by simp [hwf]) rfl) s' h
            · rw [if_neg hc] at h
              exact ih _ (retgo_step_keep idx s hinv key t hlk _ hi hc
                (⟨aset s.trackers key (t.setFree ((p - t.spanAddr) / blkSize)),
                  key :: s.freeList, s.emptyCount, s.pageMap, s.spanMap⟩ : CCState)
                rfl (by simp [hwf]) rfl) s' h
          · rw [Bool.not_eq_true] at hwf
            simp only [hwf, Bool.false_eq_true, if_false] at h
            by_cases hc : t.allFree = false ∧
                (t.setFree ((p - t.spanAddr) / blkSize)).allFree = true
            · rw [if_pos hc] at h
              by_cases hgd : maxEmptySpans idx < s.emptyCount + 1
              · rw [if_pos hgd] at h
                exact ih _ (retgo_step_evict idx s hinv key t hlk _ hi hc.1 hc.2
                  (⟨aset s.trackers key (t.setFree ((p - t.spanAddr) / blkSize)),
                    s.freeList, s.emptyCount + 1, s.pageMap, s.spanMap⟩ : CCState)
                  rfl (by simp [hwf]) rfl) s' h
              · rw [if_neg hgd] at h
                exact ih _ (retgo_step_grow idx s hinv key t hlk _ hi hc.1 hc.2
                  (by omega)
                  (⟨aset s.trackers key (t.setFree ((p - t.spanAddr) / blkSize)),
                    s.freeList, s.emptyCount + 1, s.pageMap, s.spanMap⟩ : CCState)
                  rfl (by simp [hwf]) rfl) s' h
            · rw [if_neg hc] at h
              exact ih _ (retgo_step_keep idx s hinv key t hlk _ hi hc
                (⟨aset s.trackers key (t.setFree ((p - t.spanAddr) / blkSize)),
                  s.freeList, s.emptyCount, s.pageMap, s.spanMap⟩ : CCState)
                rfl (by simp [hwf]) rfl) s' h

/-- `returnRange` preserves the class invariant whenever it completes. -/
theorem returnRange_inv (idx : Nat) (s : CCState) (hinv : CCInv idx s)
    (chain : List Nat) (s' : CCState) (h : returnRange idx s chain = some s') :
    CCInv idx s' := by
  unfold returnRange at h
  by_cases hg : chain = [] ∨ NUM_CLASSES ≤ idx
  · rw [if_pos hg] at h
    injection h with h2
    subst h2
    exact hinv
  · rw [if_neg hg] at h
    exact retGo_inv idx (SizeClass.getSize idx) chain s hinv s' h

/-- `fetchRange` preserves the class invariant. -/
theorem fetchRange_inv (idx : Nat) (s : CCState) (hinv : CCInv idx s)
    (maxBatch : Nat) (os : Option Nat) :
    CCInv idx (fetchRange idx s maxBatch os).1 := by
  by_cases hg : NUM_CLASSES ≤ idx ∨ maxBatch = 0
  · have he : fetchRange idx s maxBatch os = (s, []) := by
      unfold fetchRange
      rw [if_pos hg]
    rw [he]
    exact hinv
  · have hmb : maxBatch ≠ 0 := (not_or.mp hg).2
    cases hfl : s.freeList with
    | cons a0 rest =>
      simp only [fetchRange]
      rw [if_neg hg, hfl, if_neg (List.cons_ne_nil a0 rest)]
      simp only []
      rw [hfl]
      simp only [Bool.true_eq_false, if_false]
      rcases hlk : alookup s.trackers a0 with _ | t
      · simp only [hlk]
        exact hinv
      · simp only [hlk]
        by_cases h2 : (t.allocateBatch maxBatch (SizeClass.getSize idx)).2.allAllocated = true
        · rw [if_pos h2]
          by_cases h1 : t.allFree = true ∧
              (t.allocateBatch maxBatch (SizeClass.getSize idx)).1.length ≠ 0
          · rw [if_pos h1]
            exact fetch_tail_inv idx maxBatch s hinv hmb a0 t hlk
              (by rw [hfl]; exact List.mem_cons_self _ _) _
              rfl (by rw [if_pos h2, hfl]) (by rw [if_pos h1])
          · rw [if_neg h1]
            exact fetch_tail_inv idx maxBatch s hinv hmb a0 t hlk
              (by rw [hfl]; exact List.mem_cons_self _ _) _
              rfl (by rw [if_pos h2, hfl]) (by rw [if_neg h1])
        · rw [if_neg h2]
          by_cases h1 : t.allFree = true ∧
              (t.allocateBatch maxBatch (SizeClass.getSize idx)).1.length ≠ 0
          · rw [if_pos h1]
            exact fetch_tail_inv idx maxBatch s hinv hmb a0 t hlk
              (by rw [hfl]; exact List.mem_cons_self _ _) _
              rfl (by rw [if_neg h2, hfl]) (by rw [if_pos h1])
          · rw [if_neg h1]
            exact fetch_tail_inv idx maxBatch s hinv hmb a0 t hlk
              (by rw [hfl]; exact List.mem_cons_self _ _) _
              rfl (by rw [if_neg h2, hfl]) (by rw [if_neg h1])
    | nil =>
      rcases os with _ | a
      · have he : fetchRange idx s maxBatch none = (s, []) := by
          unfold fetchRange
          rw [if_neg hg, hfl]
          simp [fetchFromPageCache]
        rw [he]
        exact hinv
      · have hU : CCInv idx
            (⟨aset s.trackers a
              { spanAddr := a, numPages := pagesFor idx,
                freeCount := SpanTracker.BLOCK_COUNT, bitmap := List.replicate 32 0 },
              [a], s.emptyCount + 1, [], []⟩ : CCState) :=
          refill_inv idx s hinv hfl a _ rfl rfl rfl
        by_cases hm : idx < CLS_MEDIUM
        · simp only [fetchRange, fetchFromPageCache, hfl, hg, hm, eq_self_iff_true,
            if_true, if_false, Bool.true_eq_false]
          simp only [alookup_aset_self]
          by_cases h2 : (SpanTracker.allocateBatch
              { spanAddr := a, numPages := pagesFor idx,
                freeCount := SpanTracker.BLOCK_COUNT, bitmap := List.replicate 32 0 }
              maxBatch (SizeClass.getSize idx)).2.allAllocated = true
          · rw [if_pos h2]
            by_cases h1 : SpanTracker.allFree
                { spanAddr := a, numPages := pagesFor idx,
                  freeCount := SpanTracker.BLOCK_COUNT, bitmap := List.replicate 32 0 }
                = true ∧
                (SpanTracker.allocateBatch
                  { spanAddr := a, numPages := pagesFor idx,
                    freeCount := SpanTracker.BLOCK_COUNT, bitmap := List.replicate 32 0 }
                  maxBatch (SizeClass.getSize idx)).1.length ≠ 0
            · rw [if_pos h1]
              exact fetch_tail_inv idx maxBatch _ hU hmb a _
                (alookup_aset_self _ _ _) (by simp) _
                rfl (by rw [if_pos h2]) (by rw [if_pos h1])
            · rw [if_neg h1]
              exact fetch_tail_inv idx maxBatch _ hU hmb a _
                (alookup_aset_self _ _ _) (by simp) _
                rfl (by rw [if_pos h2]) (by rw [if_neg h1])
          · rw [if_neg h2]
            by_cases h1 : SpanTracker.allFree
                { spanAddr := a, numPages := pagesFor idx,
                  freeCount := SpanTracker.BLOCK_COUNT, bitmap := List.replicate 32 0 }
                = true ∧
                (SpanTracker.allocateBatch
                  { spanAddr := a, numPages := pagesFor idx,
                    freeCount := SpanTracker.BLOCK_COUNT, bitmap := List.replicate 32 0 }
                  maxBatch (SizeClass.getSize idx)).1.length ≠ 0
            · rw [if_pos h1]
              exact fetch_tail_inv idx maxBatch _ hU hmb a _
                (alookup_aset_self _ _ _) (by simp) _
                rfl (by rw [if_neg h2]) (by rw [if_pos h1])
            · rw [if_neg h1]
              exact fetch_tail_inv idx maxBatch _ hU hmb a _
                (alookup_aset_self _ _ _) (by simp) _
                rfl (by rw [if_neg h2]) (by rw [if_neg h1])
        · simp only [fetchRange, fetchFromPageCache, hfl, hg, hm, eq_self_iff_true,
            if_true, if_false, Bool.true_eq_false]
          simp only [alookup_aset_self]
          by_cases h2 : (SpanTracker.allocateBatch
              { spanAddr := a, numPages := pagesFor idx,
                freeCount := SpanTracker.BLOCK_COUNT, bitmap := List.replicate 32 0 }
              maxBatch (SizeClass.getSize idx)).2.allAllocated = true
          · rw [if_pos h2]
            by_cases h1 : SpanTracker.allFree
                { spanAddr := a, numPages := pagesFor idx,
                  freeCount := SpanTracker.BLOCK_COUNT, bitmap := List.replicate 32 0 }
                = true ∧
                (SpanTracker.allocateBatch
                  { spanAddr := a, numPages := pagesFor idx,
                    freeCount := SpanTracker.BLOCK_COUNT, bitmap := List.replicate 32 0 }
                  maxBatch (SizeClass.getSize idx)).1.length ≠ 0
            · rw [if_pos h1]
              exact fetch_tail_inv idx maxBatch _ hU hmb a _
                (alookup_aset_self _ _ _) (by simp) _
                rfl (by rw [if_pos h2]) (by rw [if_pos h1])
            · rw [if_neg h1]
              exact fetch_tail_inv idx maxBatch _ hU hmb a _
                (alookup_aset_self _ _ _) (by simp) _
                rfl (by rw [if_pos h2]) (by rw [if_neg h1])
          · rw [if_neg h2]
            by_cases h1 : SpanTracker.allFree
                { spanAddr := a, numPages := pagesFor idx,
                  freeCount := SpanTracker.BLOCK_COUNT, bitmap := List.replicate 32 0 }
                = true ∧
                (SpanTracker.allocateBatch
                  { spanAddr := a, numPages := pagesFor idx,
                    freeCount := SpanTracker.BLOCK_COUNT, bitmap := List.replicate 32 0 }
                  maxBatch (SizeClass.getSize idx)).1.length ≠ 0
            · rw [if_pos h1]
              exact fetch_tail_inv idx maxBatch _ hU hmb a _
                (alookup_aset_self _ _ _) (by simp) _
                rfl (by rw [if_neg h2]) (by rw [if_pos h1])
            · rw [if_neg h1]
              exact fetch_tail_inv idx maxBatch _ hU hmb a _
                (alookup_aset_self _ _ _) (by simp) _
                rfl (by rw [if_neg h2]) (by rw [if_neg h1])

/-- Every `ReachCC`-reachable class state satisfies the invariant. -/
theorem reach_ccinv (idx : Nat) (s : CCState) (h : ReachCC idx s) : CCInv idx s := by
  induction h with
  | init => exact ccinv_init idx
  | fetch s maxBatch os _ _ ih => exact fetchRange_inv idx s ih maxBatch os
  | ret s chain s' _ heq ih => exact returnRange_inv idx s ih chain s' heq

/-- C4: for every class index, in every state reachable by sequences of
`fetchRange` / `returnRange` calls (observed between calls), `emptyCount`
never exceeds `maxEmpty = max(ceil(kMaxBytesPerIndex / (blockSize·1024)), 1)`
(= `maxEmptySpans idx`, with `kMaxBytesPerIndex` = 4 MiB): whenever a
tracker's last outstanding block is returned and the incremented `emptyCount`
exceeds the cap, `returnRange` immediately hands the span back to the
PageCache and decrements `emptyCount` (CentralCache.cpp lines 97-130 and
166-213). -/
theorem c4_emptyCount_bounded (idx : Nat) (s : CCState) (h : ReachCC idx s) :
    s.emptyCount ≤ maxEmptySpans idx :=
  (reach_ccinv idx s h).ecbound

theorem c4_emptyCount_bounded_witness :
    ReachCC 0 ccInit ∧ ccInit.emptyCount ≤ maxEmptySpans 0 :=
  ⟨ReachCC.init, c4_emptyCount_bounded 0 ccInit ReachCC.init⟩

end MemPool
